import Mathlib

/-!
# Verification development for `step/step.go`

A shallow embedding of the report-generation step (package `step`) and proofs of
properties of `ProcessConfig`, `Run`, `generateTestReport`, `collectFilesWithPatterns`,
`moveAssets` and `injectGoogleAnalytics`.

Modelling conventions.

* A Go `string` is a `List Char` (a well-formed UTF-8 string seen as its code points).
* Functions of the Go standard library (`strings`, `path/filepath`, `os`) are given their
  documented Unix semantics.
* The file system is an explicit value of type `FS` (a tree of files and directories without
  symbolic links); a path is resolved by walking its elements, and every directory passed
  through must exist. Stateful code passes a `World` (file system and event trace) explicitly.
* Collaborators reached through interfaces (`env.Repository`, `stepconf.InputParser`,
  `xctesthtmlreport.Generator`, `zglob.Glob`, `filepath.Glob`, `os.MkdirTemp`) and the
  iteration order of Go maps are parameters, collected in `Deps`.
-/

namespace Step

/-- Go strings, as lists of Unicode code points. -/
abbrev GoString := List Char

/-! ## `strings` -/

/-- Go `unicode.IsSpace`: the Unicode White_Space code points. -/
def isSpace (c : Char) : Bool :=
  let n := c.toNat
  (9 ≤ n && n ≤ 13) || n == 0x20 || n == 0x85 || n == 0xA0 || n == 0x1680 ||
  (0x2000 ≤ n && n ≤ 0x200A) || n == 0x2028 || n == 0x2029 || n == 0x202F ||
  n == 0x205F || n == 0x3000

/-- Go `strings.TrimSpace`: remove all leading and trailing white space. -/
def TrimSpace (s : GoString) : GoString :=
  ((s.dropWhile isSpace).reverse.dropWhile isSpace).reverse

/-- Go `strings.Split(s, sep)` for a one-character separator `sep`
(the step only splits on a newline; `filepath` splits on the path separator). -/
def Split (sep : Char) : GoString → List GoString
  | [] => [[]]
  | c :: cs =>
    if c = sep then [] :: Split sep cs
    else
      match Split sep cs with
      | [] => [[c]]
      | l :: ls => (c :: l) :: ls

/-- Go `strings.HasPrefix`. -/
def HasPrefix : GoString → GoString → Bool
  | _, [] => true
  | [], _ :: _ => false
  | c :: cs, p :: ps => c == p && HasPrefix cs ps

/-- Go `strings.HasSuffix`. -/
def HasSuffix (s suffix : GoString) : Bool :=
  HasPrefix s.reverse suffix.reverse

/-- Go `strings.TrimSuffix`. -/
def TrimSuffix (s suffix : GoString) : GoString :=
  if HasSuffix s suffix then s.take (s.length - suffix.length) else s

/-- Go `strings.Index`: position of the first occurrence of `sub` in `s`
(`none` stands for Go's `-1`). -/
def Index : GoString → GoString → Option Nat
  | [], sub => if sub = [] then some 0 else none
  | c :: cs, sub =>
    if HasPrefix (c :: cs) sub then some 0
    else (Index cs sub).map (· + 1)

/-- Go `strings.Contains`. -/
def Contains (s sub : GoString) : Bool :=
  (Index s sub).isSome

/-- Go `strings.Replace(s, old, new, 1)`: replace the first occurrence of `old`, if any. -/
def ReplaceFirst (s old new : GoString) : GoString :=
  match Index s old with
  | none => s
  | some i => s.take i ++ new ++ s.drop (i + old.length)

/-! ## `path/filepath` (Unix) -/

/-- Backwards scan of `filepath.Ext` over the reversed path: stop with the empty extension at
a separator, return the dot and what was passed (`acc`) at the first dot. -/
def extScan : GoString → GoString → GoString
  | [], _ => []
  | c :: rest, acc =>
    if c = '/' then []
    else if c = '.' then '.' :: acc
    else extScan rest (c :: acc)

/-- Go `filepath.Ext`: the suffix beginning at the final dot in the final element of
the path, scanning backwards until a separator is met. -/
def Ext (path : GoString) : GoString :=
  extScan path.reverse []

/-- Go `filepath.Base`: the last element of the path, trailing slashes removed first. -/
def Base (path : GoString) : GoString :=
  if path = [] then ['.']
  else
    let stripped := path.reverse.dropWhile (· == '/')
    let last := (stripped.takeWhile (· != '/')).reverse
    if last = [] then ['/'] else last

/-- One step of `filepath.Clean` on the stack of output elements. -/
def cleanStep (rooted : Bool) (out : List GoString) (elem : GoString) : List GoString :=
  if elem = [] ∨ elem = ['.'] then out
  else if elem = ['.', '.'] then
    match out.getLast? with
    | some top =>
      if top = ['.', '.'] then out ++ [elem] else out.dropLast
    | none => if rooted then out else out ++ [elem]
  else out ++ [elem]

/-- Whether a path starts with the separator. -/
def isRooted (path : GoString) : Bool :=
  match path with
  | '/' :: _ => true
  | _ => false

/-- Join path elements with the separator (`strings.Join(elems, "/")`). -/
def joinSep : List GoString → GoString
  | [] => []
  | [e] => e
  | e :: es => e ++ '/' :: joinSep es

/-- Go `filepath.Clean`, element by element: empty and `.` elements are dropped, a `..`
element removes the preceding real element, is dropped at the root, and is kept at the
start of a relative path. -/
def Clean (path : GoString) : GoString :=
  if path = [] then ['.']
  else
    let rooted := isRooted path
    let out := (Split '/' path).foldl (cleanStep rooted) []
    if rooted then '/' :: joinSep out
    else if out = [] then ['.'] else joinSep out

/-- Go `filepath.Join`: leading empty elements are ignored, the rest is joined with the
separator and cleaned; the result is empty when every element is empty. -/
def Join (elem : List GoString) : GoString :=
  match elem.dropWhile (· == []) with
  | [] => []
  | es => Clean (joinSep es)

/-! ## Data of the step -/

/-- Go `error` values: the `errno` carried by an `os.PathError` or `os.LinkError`, a plain
message (`errors.New`, `fmt.Errorf` without `%w`), or an error wrapped by
`fmt.Errorf("...: %w", err)`. -/
inductive Err where
  | eexist
  | enoent
  | enotdir
  | eisdir
  | einval
  | enotempty
  | msg (text : GoString)
  | wrap (text : GoString) (inner : Err)
  deriving DecidableEq, Repr

/-- Equality of results (`Except`) is decidable when it is on errors and on values. -/
instance decEqExcept {ε α : Type} [DecidableEq ε] [DecidableEq α] : DecidableEq (Except ε α)
  | .ok a, .ok b =>
    if h : a = b then isTrue (congrArg Except.ok h)
    else isFalse (fun e => h (Except.ok.inj e))
  | .error a, .error b =>
    if h : a = b then isTrue (congrArg Except.error h)
    else isFalse (fun e => h (Except.error.inj e))
  | .ok _, .error _ => isFalse (fun e => Except.noConfusion e)
  | .error _, .ok _ => isFalse (fun e => Except.noConfusion e)

/-- Go `os.IsExist`: true for `EEXIST` and `ENOTEMPTY`; an error wrapped by `fmt.Errorf`
is not unwrapped. -/
def isExist : Err → Bool
  | .eexist => true
  | .enotempty => true
  | _ => false

/-- The step inputs, as filled in by the input parser. -/
structure Input where
  TestDeployDir : GoString
  XcresultPatterns : GoString
  Verbose : Bool
  deriving DecidableEq, Repr

/-- The validated configuration. -/
structure Config where
  TestDeployDir : GoString
  XcresultPatterns : List GoString
  deriving DecidableEq, Repr

/-- The result of a run. -/
structure Result where
  HtmlReportDir : GoString
  deriving DecidableEq, Repr

/-- Constant `htmlReportDirKey`. -/
def htmlReportDirKey : GoString := "BITRISE_HTML_REPORT_DIR".toList

/-- Constant `htmlReportInfoFile`. -/
def htmlReportInfoFile : GoString := "report-info.json".toList

/-! ## File system -/

/-- A resolved path: the names from the root directory down to the entry. -/
abbrev Path := List GoString

/-- A file-system node. -/
inductive Node where
  | file (content : GoString)
  | dir
  deriving DecidableEq, Repr

/-- Whether a node is a directory. -/
def Node.isDir : Node → Bool
  | .dir => true
  | .file _ => false

/-- A file system: the working directory and the nodes below the root, keyed by their
resolved path. The root directory always exists; there are no symbolic links. -/
structure FS where
  cwd : Path
  nodes : List (Path × Node)
  deriving DecidableEq, Repr

/-- First binding of a path in a node list. -/
def lookupNode (p : Path) : List (Path × Node) → Option Node
  | [] => none
  | (k, n) :: rest => if k = p then some n else lookupNode p rest

/-- The node at a resolved path, if any. -/
def FS.get (fs : FS) (p : Path) : Option Node :=
  if p = [] then some .dir else lookupNode p fs.nodes

/-- Bind `p` to `node`, replacing an earlier binding. -/
def FS.set (fs : FS) (p : Path) (node : Node) : FS :=
  { fs with nodes := (p, node) :: fs.nodes.filter (fun kv => kv.1 ≠ p) }

/-- Remove the binding of `p`. -/
def FS.remove (fs : FS) (p : Path) : FS :=
  { fs with nodes := fs.nodes.filter (fun kv => kv.1 ≠ p) }

/-- Move the subtree rooted at `o` to `n`, dropping whatever was bound below `n`. -/
def FS.moveTree (fs : FS) (o n : Path) : FS :=
  let kept := fs.nodes.filter fun kv => !n.isPrefixOf kv.1
  { fs with nodes :=
      kept.map fun kv => if o.isPrefixOf kv.1 then (n ++ kv.1.drop o.length, kv.2) else kv }

/-- One element of a path string applied to the directory stack of the resolution. -/
def resolveStep (stack : Path) (elem : GoString) : Path :=
  if elem = [] ∨ elem = ['.'] then stack
  else if elem = ['.', '.'] then stack.dropLast
  else stack ++ [elem]

/-- One step of the path walk of the operating system. The directory reached so far must
exist and be a directory before `.`, `..` or a name is followed from it (`ENOTDIR` when it is
a file, `ENOENT` when it is missing); an empty element (doubled or trailing separator) stays
in place and only fails on a file. -/
def walkStep (fs : FS) (acc : Except Err Path) (elem : GoString) : Except Err Path :=
  match acc with
  | .error err => .error err
  | .ok stack =>
    match fs.get stack with
    | some .dir => .ok (resolveStep stack elem)
    | some (.file _) => .error .enotdir
    | none => if elem = [] then .ok stack else .error .enoent

/-- Path resolution of the operating system: a rooted path starts at the root, any other
at the working directory; the elements are walked one by one, `..` goes to the parent (the
root is its own parent), and every directory passed through must exist. The last element
itself need not exist. -/
def FS.resolve (fs : FS) (path : GoString) : Except Err Path :=
  (Split '/' path).foldl (walkStep fs) (.ok (if isRooted path then [] else fs.cwd))

/-- A name that a directory entry can carry: not empty, not `.` or `..`, no separator. -/
def validName (n : GoString) : Bool :=
  n ≠ [] && n ≠ ['.'] && n ≠ ['.', '.'] && !n.contains '/'

/-- Every bound path consists of names that directory entries can carry. -/
def FS.validNames (fs : FS) : Bool :=
  fs.nodes.all fun kv => kv.1.all validName

/-- Every bound path lies in a directory: its parent path holds a directory. -/
def FS.parentsAreDirs (fs : FS) : Bool :=
  fs.nodes.all fun kv => decide (fs.get kv.1.dropLast = some .dir)

/-- Go `os.DirEntry`, reduced to what the step reads. -/
structure DirEntry where
  name : GoString
  isDir : Bool
  deriving DecidableEq, Repr

/-- Names of the entries directly inside the directory `p`. -/
def FS.childNames (fs : FS) (p : Path) : List GoString :=
  (fs.nodes.filterMap fun kv =>
    if kv.1 ≠ [] ∧ kv.1.dropLast = p then kv.1.getLast? else none).dedup

/-- Entries directly inside the directory `p`, sorted by file name. -/
def FS.children (fs : FS) (p : Path) : List DirEntry :=
  ((fs.childNames p).insertionSort (fun a b => a ≤ b)).filterMap fun n =>
    (fs.get (p ++ [n])).map fun node => { name := n, isDir := node.isDir }

/-- Go `os.Stat` (without symbolic links, the same as `os.Lstat`), reduced to the node. -/
def Stat (fs : FS) (name : GoString) : Except Err Node :=
  if name = [] then .error .enoent
  else
    match fs.resolve name with
    | .error err => .error err
    | .ok p =>
      match fs.get p with
      | some node => .ok node
      | none => .error .enoent

/-- Go `os.Mkdir`: create one directory; fails with `EEXIST` when the path exists and with
`ENOENT` or `ENOTDIR` when the parent is not a directory. -/
def Mkdir (fs : FS) (name : GoString) : Except Err FS :=
  if name = [] then .error .enoent
  else
    match fs.resolve name with
    | .error err => .error err
    | .ok p =>
      match fs.get p with
      | some _ => .error .eexist
      | none =>
        match fs.get p.dropLast with
        | some .dir => .ok { fs with nodes := (p, .dir) :: fs.nodes }
        | some (.file _) => .error .enotdir
        | none => .error .enoent

/-- Go `os.ReadDir`: the entries of a directory, sorted by file name. -/
def ReadDir (fs : FS) (name : GoString) : Except Err (List DirEntry) :=
  if name = [] then .error .enoent
  else
    match fs.resolve name with
    | .error err => .error err
    | .ok p =>
      match fs.get p with
      | some .dir => .ok (fs.children p)
      | some (.file _) => .error .enotdir
      | none => .error .enoent

/-- Go `os.Rename` on Unix: fails when the source is missing, when the target is an existing
directory other than the source (`EEXIST`), or when the parent of the target is not a
directory; a file replaces an existing target file; a directory moves with its subtree. -/
def Rename (fs : FS) (oldpath newpath : GoString) : Except Err FS :=
  if oldpath = [] ∨ newpath = [] then .error .enoent
  else
    match fs.resolve oldpath, fs.resolve newpath with
    | .error err, _ => .error err
    | .ok _, .error err => .error err
    | .ok o, .ok n =>
      match fs.get o with
      | none => .error .enoent
      | some src =>
        if o = n then .ok fs
        else
          match fs.get n with
          | some .dir => .error .eexist
          | dst =>
            if fs.get n.dropLast ≠ some .dir then .error .enoent
            else
              match src with
              | .file c => .ok ((fs.remove o).set n (.file c))
              | .dir =>
                if dst.isSome then .error .enotdir
                else if o.isPrefixOf n then .error .einval
                else .ok (fs.moveTree o n)

/-- Go `os.ReadFile`. -/
def ReadFile (fs : FS) (name : GoString) : Except Err GoString :=
  if name = [] then .error .enoent
  else
    match fs.resolve name with
    | .error err => .error err
    | .ok p =>
      match fs.get p with
      | some (.file c) => .ok c
      | some .dir => .error .eisdir
      | none => .error .enoent

/-- Go `os.WriteFile`: create or truncate the file and write the data. -/
def WriteFile (fs : FS) (name : GoString) (data : GoString) : Except Err FS :=
  if name = [] then .error .enoent
  else
    match fs.resolve name with
    | .error err => .error err
    | .ok p =>
      match fs.get p with
      | some .dir => .error .eisdir
      | _ =>
        match fs.get p.dropLast with
        | some .dir => .ok (fs.set p (.file data))
        | some (.file _) => .error .enotdir
        | none => .error .enoent

/-- Go `os.IsNotExist`: true for `ENOENT`; an error wrapped by `fmt.Errorf` is not
unwrapped. -/
def isNotExist : Err → Bool
  | .enoent => true
  | _ => false

/-- The path checker `IsDirExists` of `go-utils/pathutil`: an empty path is an error; the
path is looked up with `os.Lstat`; a missing path is `false`, any other lookup failure is
returned as an error, an existing path is a directory or not. -/
def IsDirExists (fs : FS) (pth : GoString) : Except Err Bool :=
  if pth = [] then .error (.msg "no path provided".toList)
  else
    match Stat fs pth with
    | .ok node => .ok node.isDir
    | .error err => if isNotExist err then .ok false else .error err

/-! ## Collaborators and the observable world -/

/-- Logger methods used by the step (the message text is not modelled). -/
inductive Level where
  | println
  | printf
  | infof
  | warnf
  | errorf
  | donef
  deriving DecidableEq, Repr

/-- Functions whose invocation is recorded in the trace. -/
inductive Callee where
  | htmlReportsRootDir
  | generateTestReport
  | htmlGenerate
  | injectGoogleAnalytics
  | moveAssets
  | createReportInfo
  deriving DecidableEq, Repr

/-- An observable event: a logger call, or the invocation of a function with its string
arguments. -/
inductive Event where
  | log (level : Level)
  | call (callee : Callee) (args : List GoString)
  deriving DecidableEq, Repr

/-- The state threaded through the step: the file system and the events so far. -/
structure World where
  fs : FS
  trace : List Event
  deriving DecidableEq, Repr

/-- Append an event to the trace. -/
def World.emit (w : World) (e : Event) : World :=
  { w with trace := w.trace ++ [e] }

/-- The arguments of the recorded invocations of `c`, in order. -/
def callsOf (c : Callee) (trace : List Event) : List (List GoString) :=
  trace.filterMap fun e =>
    match e with
    | .call c2 args => if c2 = c then some args else none
    | .log _ => none

/-- The collaborators of `ReportGenerator` and the unspecified choices of the runtime.

* `parse`: the outcome of `inputParser.Parse`;
* `envGet`: `envRepository.Get`;
* `zglob`: `zglob.Glob`, which only reads the file system;
* `filepathGlob`: `filepath.Glob`, which only reads the file system (it returns every
  matching file once; theorems that rely on this say so);
* `htmlGenerate`: `htmlGenerator.Generate(dir, xcresultPath)`, which may change the file
  system arbitrarily and may fail;
* `mkdirTemp`: `os.MkdirTemp(dir, pattern)`;
* `rangeOrder`: the order in which `range` visits the keys of a Go map. -/
structure Deps where
  parse : Except Err Input
  envGet : GoString → GoString
  zglob : FS → GoString → Except Err (List GoString)
  filepathGlob : FS → GoString → Except Err (List GoString)
  htmlGenerate : FS → GoString → GoString → Option Err × FS
  mkdirTemp : FS → GoString → GoString → Except Err (GoString × FS)
  rangeOrder : List GoString → List GoString

/-! ## The step -/

/-- The loop of `ProcessConfig` over the split lines: trim, skip empty lines, reject a
pattern without the `.xcresult` suffix, collect the others in order. -/
def filterPatterns : List GoString → List GoString → Except Err (List GoString)
  | [], filteredPatterns => .ok filteredPatterns
  | p :: rest, filteredPatterns =>
    let pattern := TrimSpace p
    if pattern = [] then filterPatterns rest filteredPatterns
    else if !HasSuffix pattern ".xcresult".toList then
      .error (.msg ("pattern (".toList ++ pattern ++ ") must filter for xcresult files".toList))
    else filterPatterns rest (filteredPatterns ++ [pattern])

/-- The method `ReportGenerator.ProcessConfig` (printing the inputs and setting the log level are
not modelled). -/
def ProcessConfig (d : Deps) : Except Err Config :=
  match d.parse with
  | .error err => .error err
  | .ok input =>
    let patterns := Split '\n' (TrimSpace input.XcresultPatterns)
    match filterPatterns patterns [] with
    | .error err => .error err
    | .ok filteredPatterns =>
      .ok { TestDeployDir := input.TestDeployDir, XcresultPatterns := filteredPatterns }

/-- Insert a key into a Go map used as a set (`allMatches[match] = struct{}{}`); the map
is kept as the list of its distinct keys. -/
def insertKey (allMatches : List GoString) (key : GoString) : List GoString :=
  if key ∈ allMatches then allMatches else allMatches ++ [key]

/-- The pattern loop of `collectFilesWithPatterns`. -/
def collectLoop (d : Deps) (fs : FS) : List GoString → List GoString → Except Err (List GoString)
  | [], allMatches => .ok (d.rangeOrder allMatches)
  | pattern :: rest, allMatches =>
    match d.zglob fs pattern with
    | .error err => .error err
    | .ok found => collectLoop d fs rest (found.foldl insertKey allMatches)

/-- The function `collectFilesWithPatterns`: expand every pattern, gather the matches in a map used as
a set, and return its keys in the order `range` yields them. -/
def collectFilesWithPatterns (d : Deps) (fs : FS) (patterns : List GoString) :
    Except Err (List GoString) :=
  collectLoop d fs patterns []

/-- The telemetry snippet `googleAnalyticsScript`. -/
def googleAnalyticsScript : GoString :=
  ("<!\x2d\x2d Google tag (gtag.js) \x2d\x2d>\n" ++
   "<script async src=\"https://www.googletagmanager.com/gtag/js?id=G\x2dVJV9NL05SD\"></script>\n" ++
   "<script>\n" ++
   "  window.dataLayer = window.dataLayer || [];\n" ++
   "  function gtag()\x7bdataLayer.push(arguments);\x7d\n" ++
   "  gtag(\x27js\x27, new Date());\n" ++
   "\n" ++
   "  gtag(\x27config\x27, \x27G\x2dVJV9NL05SD\x27);\n" ++
   "</script>\n").toList

/-- The rewriting of one HTML file's content in `injectGoogleAnalytics`. -/
def injectContent (htmlContent : GoString) : GoString :=
  if Contains htmlContent "</head>".toList then
    ReplaceFirst htmlContent "</head>".toList (googleAnalyticsScript ++ "</head>".toList)
  else if Contains htmlContent "<head>".toList then
    ReplaceFirst htmlContent "<head>".toList ("<head>\n".toList ++ googleAnalyticsScript)
  else htmlContent

/-- The body of the file loop of `injectGoogleAnalytics`: read, rewrite, write back. -/
def injectFile (fs : FS) (htmlFile : GoString) : Option Err × FS :=
  match ReadFile fs htmlFile with
  | .error err => (some (.wrap "failed to read HTML file".toList err), fs)
  | .ok content =>
    match WriteFile fs htmlFile (injectContent content) with
    | .error err => (some (.wrap "failed to write modified HTML file".toList err), fs)
    | .ok fs2 => (none, fs2)

/-- The file loop of `injectGoogleAnalytics`; it stops at the first failure. -/
def injectFiles : List GoString → FS → Option Err × FS
  | [], fs => (none, fs)
  | htmlFile :: rest, fs =>
    match injectFile fs htmlFile with
    | (some err, fs2) => (some err, fs2)
    | (none, fs2) => injectFiles rest fs2

/-- The function `injectGoogleAnalytics`: rewrite every HTML file directly inside the
report directory. -/
def injectGoogleAnalytics (d : Deps) (htmlReportDir : GoString) (fs : FS) : Option Err × FS :=
  match d.filepathGlob fs (Join [htmlReportDir, "*.html".toList]) with
  | .error err => (some (.wrap "failed to find HTML files".toList err), fs)
  | .ok htmlFiles => injectFiles htmlFiles fs

/-- The asset folder of `moveAssets`:
`filepath.Join(htmlReportDir, filepath.Base(xcresultPath))`. -/
def assetFolder (xcresultPath htmlReportDir : GoString) : GoString :=
  Join [htmlReportDir, Base xcresultPath]

/-- Whether the entry loop of `moveAssets` renames the entry: it is no directory and its
extension is neither `.plist` nor `.log`. -/
def isAsset (entry : DirEntry) : Bool :=
  !entry.isDir && !(Ext entry.name = ".plist".toList ∨ Ext entry.name = ".log".toList)

/-- The entry loop of `moveAssets`; it stops at the first failing rename. -/
def moveEntries (xcresultPath folder : GoString) : List DirEntry → FS → Option Err × FS
  | [], fs => (none, fs)
  | entry :: rest, fs =>
    if entry.isDir then moveEntries xcresultPath folder rest fs
    else if Ext entry.name = ".plist".toList ∨ Ext entry.name = ".log".toList then
      moveEntries xcresultPath folder rest fs
    else
      match Rename fs (Join [xcresultPath, entry.name]) (Join [folder, Base entry.name]) with
      | .error err => (some err, fs)
      | .ok fs2 => moveEntries xcresultPath folder rest fs2

/-- The function `moveAssets`: list the bundle, create the asset folder, move the assets. -/
def moveAssets (xcresultPath htmlReportDir : GoString) (fs : FS) : Option Err × FS :=
  match ReadDir fs xcresultPath with
  | .error err => (some err, fs)
  | .ok entries =>
    match Mkdir fs (assetFolder xcresultPath htmlReportDir) with
    | .error err => (some err, fs)
    | .ok fs2 => moveEntries xcresultPath (assetFolder xcresultPath htmlReportDir) entries fs2

/-- The JSON text of `ReportInfo{Category: "test"}`. -/
def reportInfoJson : GoString := "\x7b\"category\":\"test\"\x7d".toList

/-- The function `createReportInfo`: write the report descriptor. -/
def createReportInfo (htmlReportDir : GoString) (fs : FS) : Option Err × FS :=
  match WriteFile fs (Join [htmlReportDir, htmlReportInfoFile]) reportInfoJson with
  | .error err => (some err, fs)
  | .ok fs2 => (none, fs2)

/-- The name `baseName` of the report directory in `generateTestReport`. -/
def reportBaseName (xcresultPath : GoString) : GoString :=
  TrimSuffix (Base xcresultPath) (Ext xcresultPath)

/-- The report directory `dirPath` of `generateTestReport`. -/
def reportDirPath (rootDir xcresultPath : GoString) : GoString :=
  Join [rootDir, reportBaseName xcresultPath]

/-- The method `ReportGenerator.generateTestReport`. Invocations of the renderer and of the three
post-processing functions are recorded in the trace. -/
def generateTestReport (d : Deps) (rootDir xcresultPath : GoString) (w : World) :
    Option Err × World :=
  let dirPath := reportDirPath rootDir xcresultPath
  match Mkdir w.fs dirPath with
  | .error err =>
    if isExist err then (none, w.emit (.log .warnf))
    else (some err, w)
  | .ok fs1 =>
    let w1 := ({ w with fs := fs1 }).emit (.call .htmlGenerate [dirPath, xcresultPath])
    match d.htmlGenerate w1.fs dirPath xcresultPath with
    | (some err, fs2) => (some (.wrap "failed to generate html".toList err), { w1 with fs := fs2 })
    | (none, fs2) =>
      let w2 := ({ w1 with fs := fs2 }).emit (.call .injectGoogleAnalytics [dirPath])
      match injectGoogleAnalytics d dirPath w2.fs with
      | (some err, fs3) =>
        (some (.wrap "failed to inject Google Analytics".toList err), { w2 with fs := fs3 })
      | (none, fs3) =>
        let w3 := ({ w2 with fs := fs3 }).emit (.call .moveAssets [xcresultPath, dirPath])
        match moveAssets xcresultPath dirPath w3.fs with
        | (some err, fs4) =>
          (some (.wrap "failed to move assets".toList err), { w3 with fs := fs4 })
        | (none, fs4) =>
          let w4 := ({ w3 with fs := fs4 }).emit (.call .createReportInfo [dirPath])
          match createReportInfo dirPath w4.fs with
          | (some err, fs5) =>
            (some (.wrap "failed to create report info file".toList err), { w4 with fs := fs5 })
          | (none, fs5) => (none, { w4 with fs := fs5 })

/-- The method `ReportGenerator.htmlReportsRootDir`: the directory named by the environment,
which must exist, or a fresh temporary directory. -/
def htmlReportsRootDir (d : Deps) (fs : FS) : Except Err GoString × FS :=
  let reportDir := d.envGet htmlReportDirKey
  if reportDir = [] then
    match d.mkdirTemp fs [] "html-reports".toList with
    | .error err => (.error err, fs)
    | .ok (dir, fs2) => (.ok dir, fs2)
  else
    match IsDirExists fs reportDir with
    | .error err => (.error err, fs)
    | .ok isDir =>
      if !isDir then
        (.error (.msg ("html report dir (".toList ++ reportDir ++
          ") does not exist or is not a folder".toList)), fs)
      else (.ok reportDir, fs)

/-- The generation loop of `Run`: every path is handed to `generateTestReport`; a failure is
logged and the loop goes on. -/
def generateReports (d : Deps) (rootDir : GoString) : List GoString → World → World
  | [], w => w
  | path :: rest, w =>
    match generateTestReport d rootDir path
        (w.emit (.call .generateTestReport [rootDir, path])) with
    | (some _, w2) => generateReports d rootDir rest (w2.emit (.log .errorf))
    | (none, w2) => generateReports d rootDir rest w2

/-- The patterns `Run` searches with: the configured ones, or the default pattern under
the test deploy directory when none is configured. -/
def effectivePatterns (config : Config) : List GoString :=
  if 0 < config.XcresultPatterns.length then config.XcresultPatterns
  else [config.TestDeployDir ++ "/**/*.xcresult".toList]

/-- Log one line per path (`Printf("- %s", path)`). -/
def logPaths : List GoString → World → World
  | [], w => w
  | _ :: rest, w => logPaths rest (w.emit (.log .printf))

/-- The method `ReportGenerator.Run`: the returned `Result` and `error`, and the world afterwards. -/
def Run (d : Deps) (config : Config) (w : World) : (Result × Option Err) × World :=
  let w0 := (w.emit (.log .println)).emit (.log .infof)
  match collectFilesWithPatterns d w0.fs (effectivePatterns config) with
  | .error err =>
    (({ HtmlReportDir := [] }, some (.wrap "failed to find all xcresult files".toList err)), w0)
  | .ok paths =>
    if paths.length = 0 then
      (({ HtmlReportDir := [] }, none), w0.emit (.log .printf))
    else
      let w1 := logPaths paths (w0.emit (.log .printf))
      let w2 := w1.emit (.call .htmlReportsRootDir [])
      match htmlReportsRootDir d w2.fs with
      | (.error err, fs2) =>
        (({ HtmlReportDir := [] },
          some (.wrap "failed to create test report directory".toList err)),
          { w2 with fs := fs2 })
      | (.ok rootDir, fs2) =>
        let w3 := (({ w2 with fs := fs2 }).emit (.log .println)).emit (.log .infof)
        let w4 := generateReports d rootDir paths w3
        (({ HtmlReportDir := rootDir }, none), (w4.emit (.log .println)).emit (.log .donef))

/-! ## Auxiliary notions of the specification and sample data -/

/-- The trimmed non-empty lines of a newline-delimited text, in input order. -/
def trimmedLines (s : GoString) : List GoString :=
  ((Split '\n' s).map TrimSpace).filter (fun l => l ≠ [])

/-- Elements that `filepath.Clean` keeps on its output stack: not empty, not `.`, without
separator. -/
def keptElems (out : List GoString) : Prop :=
  ∀ t ∈ out, t ≠ [] ∧ t ≠ ['.'] ∧ '/' ∉ t

/-- Two file systems have the same shape: the same working directory, and at every path
both have a directory, both have a file, or both have nothing. -/
def sameShape (fs fs2 : FS) : Prop :=
  fs2.cwd = fs.cwd ∧ ∀ q, (fs2.get q).map Node.isDir = (fs.get q).map Node.isDir

/-- A sample file system: the bundle `/x/run.xcresult` with a screenshot, a property list,
a log and a subdirectory; the empty bundle directory `/y/other.xcresult`; the directory
`/tmp`; and the report root `/reports`, in which the report directory `run` already holds
two HTML files. -/
def sampleFS : FS :=
  { cwd := [],
    nodes := [
      (["x".toList], .dir),
      (["x".toList, "run.xcresult".toList], .dir),
      (["x".toList, "run.xcresult".toList, "shot.png".toList], .file "PNG".toList),
      (["x".toList, "run.xcresult".toList, "Info.plist".toList], .file "P".toList),
      (["x".toList, "run.xcresult".toList, "a.log".toList], .file "L".toList),
      (["x".toList, "run.xcresult".toList, "Data".toList], .dir),
      (["y".toList], .dir),
      (["y".toList, "other.xcresult".toList], .dir),
      (["tmp".toList], .dir),
      (["reports".toList], .dir),
      (["reports".toList, "run".toList], .dir),
      (["reports".toList, "run".toList, "index.html".toList],
        .file "<html><head></head></html>".toList),
      (["reports".toList, "run".toList, "part.html".toList], .file "<head><p>".toList)] }

/-- A sample file system without any bundle: the deploy directory `/x` holds one text file. -/
def sampleEmptyFS : FS :=
  { cwd := [],
    nodes := [
      (["x".toList], .dir),
      (["x".toList, "notes.txt".toList], .file "N".toList),
      (["tmp".toList], .dir)] }

/-- The sample file system after `moveAssets` moved the assets of `/x/run.xcresult` to the
report directory `/reports/run`. -/
def sampleMoved : FS :=
  (moveAssets "/x/run.xcresult".toList "/reports/run".toList sampleFS).2

/-- What the sample patterns can match at most: the candidates of a pattern are kept by the
sample glob functions when they exist in the file system at hand. -/
def sampleCandidates (pattern : GoString) : List GoString :=
  if pattern = "/x/*.xcresult".toList ∨ pattern = "/x/**/*.xcresult".toList then
    ["/x/run.xcresult".toList]
  else if pattern = "/y/*.xcresult".toList then ["/y/other.xcresult".toList]
  else if pattern = "/**/*.xcresult".toList then
    ["/x/run.xcresult".toList, "/y/other.xcresult".toList]
  else if pattern = "/reports/run/*.html".toList then
    ["/reports/run/index.html".toList, "/reports/run/part.html".toList]
  else []

/-- The sample glob: the candidates of the pattern that exist in the file system. -/
def sampleGlob (fs : FS) (pattern : GoString) : Except Err (List GoString) :=
  .ok ((sampleCandidates pattern).filter fun p =>
    match Stat fs p with
    | .ok _ => true
    | .error _ => false)

/-- A sample `os.MkdirTemp`: the fresh directory is `/tmp/html-reports1`. -/
def sampleMkdirTemp (fs : FS) (_dir _pattern : GoString) : Except Err (GoString × FS) :=
  match Mkdir fs "/tmp/html-reports1".toList with
  | .ok fs2 => .ok ("/tmp/html-reports1".toList, fs2)
  | .error err => .error err

/-- Sample collaborators: the report root is `/reports`, the globs answer for the sample
patterns, and the renderer always fails. -/
def sampleDeps : Deps :=
  { parse := .ok
      { TestDeployDir := "/x".toList,
        XcresultPatterns := " /x/*.xcresult \n\n/y/*.xcresult\n".toList,
        Verbose := false },
    envGet := (fun _ => "/reports".toList),
    zglob := sampleGlob,
    filepathGlob := sampleGlob,
    htmlGenerate := (fun fs _ _ => (some (.msg "render failed".toList), fs)),
    mkdirTemp := sampleMkdirTemp,
    rangeOrder := id }

/-- The sample file system after `injectGoogleAnalytics` rewrote the HTML files of the
report directory `/reports/run`. -/
def sampleInjected : FS :=
  (injectGoogleAnalytics sampleDeps "/reports/run".toList sampleFS).2

/-- Sample collaborators whose input parser fails (the required input `test_result_dir`
is missing), whatever the value of `xcresult_patterns`. -/
def sampleDepsParseError : Deps :=
  { sampleDeps with
    parse := .error (.msg "required variable is not present".toList) }

/-- Sample collaborators with a report root `/missing` that does not exist. -/
def sampleDepsMissing : Deps :=
  { sampleDeps with envGet := (fun _ => "/missing".toList) }

/-- A sample configuration without explicit patterns: the default pattern under the deploy
directory `/x` is used. -/
def sampleConfig : Config :=
  { TestDeployDir := "/x".toList, XcresultPatterns := [] }

/-- A sample configuration with two explicit patterns. -/
def sampleConfigTwo : Config :=
  { TestDeployDir := "/x".toList,
    XcresultPatterns := ["/x/*.xcresult".toList, "/y/*.xcresult".toList] }

/-- The sample world: the sample file system and an empty trace. -/
def sampleWorld : World :=
  { fs := sampleFS, trace := [] }

/-- The sample world without any bundle. -/
def sampleEmptyWorld : World :=
  { fs := sampleEmptyFS, trace := [] }

/-! # Theorems -/

set_option maxRecDepth 100000

theorem HasPrefix_iff (s p : GoString) : HasPrefix s p = true ↔ ∃ t, s = p ++ t := by
  induction p generalizing s with
  | nil => cases s <;> simp [HasPrefix]
  | cons a p ih =>
    cases s with
    | nil => simp [HasPrefix]
    | cons c cs =>
      simp only [HasPrefix, Bool.and_eq_true, beq_iff_eq, ih, List.cons_append, List.cons.injEq]
      constructor
      · rintro ⟨rfl, t, rfl⟩; exact ⟨t, rfl, rfl⟩
      · rintro ⟨t, rfl, rfl⟩; exact ⟨rfl, t, rfl⟩

theorem HasSuffix_iff (s p : GoString) : HasSuffix s p = true ↔ ∃ t, s = t ++ p := by
  unfold HasSuffix
  rw [HasPrefix_iff]
  constructor
  · rintro ⟨t, h⟩
    refine ⟨t.reverse, ?_⟩
    have := congrArg List.reverse h
    simpa using this
  · rintro ⟨t, rfl⟩
    exact ⟨t.reverse, by simp⟩

theorem TrimSuffix_append (t p : GoString) : TrimSuffix (t ++ p) p = t := by
  unfold TrimSuffix
  rw [if_pos ((HasSuffix_iff _ _).2 ⟨t, rfl⟩)]
  simp

theorem Index_some {s sub : GoString} {i : Nat} (h : Index s sub = some i) :
    ∃ pre post, s = pre ++ sub ++ post ∧ pre.length = i ∧
      ∀ pre2 post2, s = pre2 ++ sub ++ post2 → i ≤ pre2.length := by
  induction s generalizing i with
  | nil =>
    simp only [Index] at h
    split at h
    · rename_i hs
      subst hs
      cases h
      exact ⟨[], [], rfl, rfl, fun _ _ _ => Nat.zero_le _⟩
    · cases h
  | cons c cs ih =>
    simp only [Index] at h
    split at h
    · rename_i hp
      cases h
      obtain ⟨t, ht⟩ := (HasPrefix_iff _ _).1 hp
      exact ⟨[], t, by simpa using ht, rfl, fun _ _ _ => Nat.zero_le _⟩
    · rename_i hp
      cases hj : Index cs sub with
      | none => rw [hj] at h; cases h
      | some j =>
        rw [hj] at h
        simp only [Option.map_some', Option.some.injEq] at h
        subst h
        obtain ⟨pre, post, hs, hl, hmin⟩ := ih hj
        refine ⟨c :: pre, post, by simp [hs], by simp [hl], ?_⟩
        intro pre2 post2 h2
        cases pre2 with
        | nil =>
          exfalso
          apply hp
          exact (HasPrefix_iff _ _).2 ⟨post2, by simpa using h2⟩
        | cons a pre2 =>
          simp only [List.cons_append, List.cons.injEq] at h2
          have := hmin pre2 post2 (by simpa using h2.2)
          simp only [List.length_cons]
          omega

theorem Index_none {s sub : GoString} (h : Index s sub = none) (pre post : GoString) :
    s ≠ pre ++ sub ++ post := by
  induction s generalizing pre with
  | nil =>
    simp only [Index] at h
    split at h
    · cases h
    · rename_i hs
      intro h2
      apply hs
      have := congrArg List.length h2
      simp at this
      exact List.length_eq_zero.1 (by omega)
  | cons c cs ih =>
    simp only [Index] at h
    split at h
    · cases h
    · rename_i hp
      simp only [Option.map_eq_none'] at h
      intro h2
      cases pre with
      | nil => exact hp ((HasPrefix_iff _ _).2 ⟨post, by simpa using h2⟩)
      | cons a pre =>
        simp only [List.cons_append, List.cons.injEq] at h2
        exact ih h pre (by simpa using h2.2)

theorem ReplaceFirst_spec {s old : GoString} (new : GoString) (h : Contains s old = true) :
    ∃ pre post, s = pre ++ old ++ post ∧
      (∀ pre2 post2, s = pre2 ++ old ++ post2 → pre.length ≤ pre2.length) ∧
      ReplaceFirst s old new = pre ++ new ++ post := by
  unfold Contains at h
  cases hi : Index s old with
  | none => rw [hi] at h; cases h
  | some i =>
    obtain ⟨pre, post, hs, hl, hmin⟩ := Index_some hi
    refine ⟨pre, post, hs, by rw [hl]; exact hmin, ?_⟩
    unfold ReplaceFirst
    rw [hi]
    subst hl
    simp only [hs]
    simp [List.take_append_eq_append_take, List.drop_append_eq_append_drop]

theorem Contains_false {s sub : GoString} (h : Contains s sub = false) (pre post : GoString) :
    s ≠ pre ++ sub ++ post := by
  unfold Contains at h
  cases hi : Index s sub with
  | none => exact Index_none hi pre post
  | some i => rw [hi] at h; cases h

theorem Ext_go_suffix (r acc : GoString) :
    ∃ t, (r.takeWhile (· != '/')).reverse ++ acc = t ++ extScan r acc := by
  induction r generalizing acc with
  | nil => exact ⟨acc, by simp [extScan]⟩
  | cons c rest ih =>
    by_cases h1 : c = '/'
    · subst h1
      exact ⟨acc, by simp [extScan, List.takeWhile]⟩
    · by_cases h2 : c = '.'
      · subst h2
        refine ⟨(rest.takeWhile (· != '/')).reverse, ?_⟩
        simp [extScan, List.takeWhile]
      · obtain ⟨t, ht⟩ := ih (c :: acc)
        refine ⟨t, ?_⟩
        simp only [extScan, if_neg h1, if_neg h2]
        rw [← ht]
        simp [List.takeWhile_cons, h1]

theorem Base_eq_append_Ext (path : GoString) : ∃ t, Base path = t ++ Ext path := by
  unfold Base Ext
  by_cases hp : path = []
  · subst hp
    exact ⟨['.'], by simp [extScan]⟩
  · rw [if_neg hp]
    cases hr : path.reverse with
    | nil => simp at hr; exact absurd hr hp
    | cons c rest =>
      by_cases hc : c = '/'
      · subst hc
        simp only [extScan, if_true]
        exact ⟨_, (List.append_nil _).symm⟩
      · have hd : (c :: rest).dropWhile (· == '/') = c :: rest := by
          simp [List.dropWhile_cons, hc]
        simp only [hd]
        obtain ⟨t, ht⟩ := Ext_go_suffix (c :: rest) []
        rw [List.append_nil] at ht
        have hne : ((c :: rest).takeWhile (· != '/')).reverse ≠ [] := by
          simp [List.takeWhile_cons, hc]
        rw [if_neg hne]
        exact ⟨t, ht⟩

theorem Base_eq_reportBaseName_append_Ext (path : GoString) :
    Base path = reportBaseName path ++ Ext path := by
  obtain ⟨t, ht⟩ := Base_eq_append_Ext path
  unfold reportBaseName
  rw [ht, TrimSuffix_append]

theorem Split_ne_nil (sep : Char) (s : GoString) : Split sep s ≠ [] := by
  cases s with
  | nil => simp [Split]
  | cons c cs =>
    simp only [Split]
    split
    · simp
    · split <;> simp

theorem Split_cons_of_ne {sep c : Char} (h : c ≠ sep) (cs : GoString) :
    ∃ l ls, Split sep cs = l :: ls ∧ Split sep (c :: cs) = (c :: l) :: ls := by
  cases hs : Split sep cs with
  | nil => exact absurd hs (Split_ne_nil sep cs)
  | cons l ls =>
    refine ⟨l, ls, rfl, ?_⟩
    simp [Split, h, hs]

theorem Split_snoc_of_ne {sep c : Char} (h : c ≠ sep) (s : GoString) :
    ∃ front last, Split sep s = front ++ [last] ∧
      Split sep (s ++ [c]) = front ++ [last ++ [c]] := by
  induction s with
  | nil => exact ⟨[], [], by simp [Split], by simp [Split, h]⟩
  | cons x xs ih =>
    obtain ⟨front, last, h1, h2⟩ := ih
    by_cases hx : x = sep
    · subst hx
      refine ⟨[] :: front, last, ?_, ?_⟩
      · simp [Split, h1]
      · simp [Split, h2]
    · obtain ⟨l, ls, e1, e2⟩ := Split_cons_of_ne hx xs
      obtain ⟨l2, ls2, e3, e4⟩ := Split_cons_of_ne hx (xs ++ [c])
      rw [List.cons_append, e4, e2]
      rw [h1] at e1
      rw [h2] at e3
      cases front with
      | nil =>
        simp only [List.nil_append, List.cons.injEq] at e1 e3
        obtain ⟨rfl, rfl⟩ := e1
        obtain ⟨rfl, rfl⟩ := e3
        exact ⟨[], x :: last, rfl, rfl⟩
      | cons f fs =>
        simp only [List.cons_append, List.cons.injEq] at e1 e3
        obtain ⟨rfl, rfl⟩ := e1
        obtain ⟨rfl, rfl⟩ := e3
        exact ⟨(x :: f) :: fs, last, rfl, rfl⟩

theorem TrimSpace_cons_space {c : Char} (hc : isSpace c = true) (l : GoString) :
    TrimSpace (c :: l) = TrimSpace l := by
  simp [TrimSpace, List.dropWhile_cons, hc]

theorem dropWhile_append_of_exists {p : Char → Bool} {l : GoString} (m : GoString)
    (h : ∃ x ∈ l, p x = false) : (l ++ m).dropWhile p = l.dropWhile p ++ m := by
  induction l with
  | nil => simp at h
  | cons a l ih =>
    by_cases ha : p a = true
    · obtain ⟨x, hx, hpx⟩ := h
      have : x ∈ l := by
        rcases List.mem_cons.1 hx with rfl | h2
        · rw [ha] at hpx; cases hpx
        · exact h2
      simp [List.dropWhile_cons, ha, ih ⟨x, this, hpx⟩]
    · simp [List.dropWhile_cons, ha]

theorem TrimSpace_snoc_space {c : Char} (hc : isSpace c = true) (l : GoString) :
    TrimSpace (l ++ [c]) = TrimSpace l := by
  unfold TrimSpace
  by_cases h : ∃ x ∈ l, isSpace x = false
  · rw [dropWhile_append_of_exists _ h]
    simp [List.dropWhile_cons, hc]
  · have hall : ∀ x ∈ l ++ [c], isSpace x = true := by
      intro x hx
      rcases List.mem_append.1 hx with h1 | h1
      · by_contra hn
        exact h ⟨x, h1, by simpa using hn⟩
      · simp at h1; subst h1; exact hc
    have h1 : (l ++ [c]).dropWhile isSpace = [] := List.dropWhile_eq_nil_iff.2 hall
    have h2 : l.dropWhile isSpace = [] :=
      List.dropWhile_eq_nil_iff.2 fun x hx => hall x (List.mem_append_left _ hx)
    rw [h1, h2]

theorem TrimSpace_nil : TrimSpace [] = [] := by simp [TrimSpace]

theorem trimmedLines_cons_space {c : Char} (hc : isSpace c = true) (s : GoString) :
    trimmedLines (c :: s) = trimmedLines s := by
  unfold trimmedLines
  by_cases hn : c = '\n'
  · subst hn
    simp [Split, TrimSpace_nil]
  · obtain ⟨l, ls, e1, e2⟩ := Split_cons_of_ne hn s
    rw [e1, e2]
    simp [TrimSpace_cons_space hc]

theorem Split_snoc_sep (sep : Char) (s : GoString) :
    Split sep (s ++ [sep]) = Split sep s ++ [[]] := by
  induction s with
  | nil => simp [Split]
  | cons x xs ih =>
    by_cases hx : x = sep
    · subst hx
      simp [Split, ih]
    · obtain ⟨l, ls, e1, e2⟩ := Split_cons_of_ne hx xs
      obtain ⟨l2, ls2, e3, e4⟩ := Split_cons_of_ne hx (xs ++ [sep])
      rw [List.cons_append, e4, e2]
      rw [ih, e1] at e3
      simp only [List.cons_append, List.cons.injEq] at e3
      obtain ⟨rfl, rfl⟩ := e3
      rfl

theorem trimmedLines_snoc_space {c : Char} (hc : isSpace c = true) (s : GoString) :
    trimmedLines (s ++ [c]) = trimmedLines s := by
  unfold trimmedLines
  by_cases hn : c = '\n'
  · subst hn
    rw [Split_snoc_sep]
    simp [TrimSpace_nil]
  · obtain ⟨front, last, h1, h2⟩ := Split_snoc_of_ne hn s
    rw [h1, h2]
    simp [TrimSpace_snoc_space hc]

theorem trimmedLines_dropWhile (s : GoString) :
    trimmedLines (s.dropWhile isSpace) = trimmedLines s := by
  induction s with
  | nil => rfl
  | cons c cs ih =>
    by_cases hc : isSpace c = true
    · rw [List.dropWhile_cons, if_pos hc, ih, trimmedLines_cons_space hc]
    · rw [List.dropWhile_cons, if_neg hc]

theorem trimmedLines_rdropWhile (s : GoString) :
    trimmedLines (s.reverse.dropWhile isSpace).reverse = trimmedLines s := by
  induction s using List.reverseRecOn with
  | nil => rfl
  | append_singleton xs c ih =>
    by_cases hc : isSpace c = true
    · rw [List.reverse_append, List.reverse_singleton, List.singleton_append,
        List.dropWhile_cons, if_pos hc, ih, trimmedLines_snoc_space hc]
    · rw [List.reverse_append, List.reverse_singleton, List.singleton_append,
        List.dropWhile_cons, if_neg hc]
      simp

theorem trimmedLines_TrimSpace (s : GoString) :
    trimmedLines (TrimSpace s) = trimmedLines s := by
  unfold TrimSpace
  rw [trimmedLines_rdropWhile, trimmedLines_dropWhile]

theorem filterPatterns_error {ps : List GoString}
    (h : ∃ p ∈ ps, TrimSpace p ≠ [] ∧ HasSuffix (TrimSpace p) ".xcresult".toList = false)
    (acc : List GoString) : ∃ err, filterPatterns ps acc = .error err := by
  induction ps generalizing acc with
  | nil => simp at h
  | cons p rest ih =>
    simp only [filterPatterns]
    by_cases h1 : TrimSpace p = []
    · rw [if_pos h1]
      obtain ⟨q, hq, hq1, hq2⟩ := h
      rcases List.mem_cons.1 hq with rfl | hq
      · exact absurd h1 hq1
      · exact ih ⟨q, hq, hq1, hq2⟩ acc
    · rw [if_neg h1]
      by_cases h2 : HasSuffix (TrimSpace p) ".xcresult".toList = true
      · simp only [h2, Bool.not_true, Bool.false_eq_true, if_false]
        obtain ⟨q, hq, hq1, hq2⟩ := h
        rcases List.mem_cons.1 hq with rfl | hq
        · rw [h2] at hq2; cases hq2
        · exact ih ⟨q, hq, hq1, hq2⟩ _
      · simp only [Bool.not_eq_true] at h2
        simp only [h2, Bool.not_false, if_true]
        exact ⟨_, rfl⟩

theorem filterPatterns_ok {ps : List GoString}
    (h : ¬ ∃ p ∈ ps, TrimSpace p ≠ [] ∧ HasSuffix (TrimSpace p) ".xcresult".toList = false)
    (acc : List GoString) :
    filterPatterns ps acc = .ok (acc ++ (ps.map TrimSpace).filter (fun l => l ≠ [])) := by
  induction ps generalizing acc with
  | nil => simp [filterPatterns]
  | cons p rest ih =>
    have hrest : ¬ ∃ q ∈ rest, TrimSpace q ≠ [] ∧
        HasSuffix (TrimSpace q) ".xcresult".toList = false := by
      rintro ⟨q, hq, hq2⟩
      exact h ⟨q, List.mem_cons_of_mem _ hq, hq2⟩
    simp only [filterPatterns]
    by_cases h1 : TrimSpace p = []
    · rw [if_pos h1, ih hrest]
      simp [h1]
    · rw [if_neg h1]
      have h2 : HasSuffix (TrimSpace p) ".xcresult".toList = true := by
        by_contra hn
        exact h ⟨p, List.mem_cons_self _ _, h1, by simpa using hn⟩
      simp only [h2, Bool.not_true, Bool.false_eq_true, if_false]
      rw [ih hrest]
      simp [h1]

theorem badLine_iff_trimmedLines (s : GoString) :
    (∃ line ∈ Split '\n' s, TrimSpace line ≠ [] ∧
        HasSuffix (TrimSpace line) ".xcresult".toList = false) ↔
      ∃ t ∈ trimmedLines s, HasSuffix t ".xcresult".toList = false := by
  unfold trimmedLines
  constructor
  · rintro ⟨line, hl, h1, h2⟩
    exact ⟨TrimSpace line, by simp only [List.mem_filter, List.mem_map]; exact ⟨⟨line, hl, rfl⟩, by simpa using h1⟩, h2⟩
  · rintro ⟨t, ht, h2⟩
    simp only [List.mem_filter, List.mem_map] at ht
    obtain ⟨⟨line, hl, rfl⟩, h1⟩ := ht
    exact ⟨line, hl, by simpa using h1, h2⟩

/-- C3 (amended): whenever the input parser succeeds, `ProcessConfig` returns an error if and
only if some line of the newline-delimited `xcresult_patterns` input it delivered, after
trimming surrounding white space, is non-empty and does not end with `.xcresult`; when it
succeeds, `Config.XcresultPatterns` is exactly the trimmed non-empty lines in input order. -/
theorem ProcessConfig_patterns (d : Deps) (input : Input) (hparse : d.parse = .ok input) :
    ((∃ err, ProcessConfig d = .error err) ↔
      ∃ line ∈ Split '\n' input.XcresultPatterns, TrimSpace line ≠ [] ∧
        HasSuffix (TrimSpace line) ".xcresult".toList = false) ∧
    (∀ config, ProcessConfig d = .ok config →
      config.XcresultPatterns = trimmedLines input.XcresultPatterns) := by
  have key := badLine_iff_trimmedLines input.XcresultPatterns
  have key2 := badLine_iff_trimmedLines (TrimSpace input.XcresultPatterns)
  rw [trimmedLines_TrimSpace] at key2
  unfold ProcessConfig
  rw [hparse]
  simp only
  by_cases hbad : ∃ line ∈ Split '\n' (TrimSpace input.XcresultPatterns), TrimSpace line ≠ [] ∧
        HasSuffix (TrimSpace line) ".xcresult".toList = false
  · obtain ⟨err, herr⟩ := filterPatterns_error hbad []
    rw [herr]
    refine ⟨⟨fun _ => key.2 (key2.1 hbad), fun _ => ⟨err, rfl⟩⟩, ?_⟩
    intro config h
    cases h
  · rw [filterPatterns_ok hbad []]
    refine ⟨⟨?_, fun h => absurd (key2.2 (key.1 h)) hbad⟩, ?_⟩
    · rintro ⟨err, h⟩
      cases h
    · intro config h
      cases h
      simp only [List.nil_append]
      exact trimmedLines_TrimSpace input.XcresultPatterns

/-- Instance of `ProcessConfig_patterns` at the sample inputs: two patterns on three
non-blank or blank lines are accepted and returned trimmed, in order. -/
theorem ProcessConfig_patterns_witness :
    sampleDeps.parse = .ok
      { TestDeployDir := "/x".toList,
        XcresultPatterns := " /x/*.xcresult \n\n/y/*.xcresult\n".toList,
        Verbose := false } ∧
    (((∃ err, ProcessConfig sampleDeps = .error err) ↔
      ∃ line ∈ Split '\n' " /x/*.xcresult \n\n/y/*.xcresult\n".toList,
        TrimSpace line ≠ [] ∧ HasSuffix (TrimSpace line) ".xcresult".toList = false) ∧
    (∀ config, ProcessConfig sampleDeps = .ok config →
      config.XcresultPatterns =
        trimmedLines " /x/*.xcresult \n\n/y/*.xcresult\n".toList)) :=
  ⟨rfl, ProcessConfig_patterns sampleDeps _ rfl⟩

/-- C3 fails as stated: when the input parser fails (here: the required input
`test_result_dir` is missing), `ProcessConfig` returns the parser's error although every line
of the `xcresult_patterns` input (here the single line `/x/*.xcresult`) ends with
`.xcresult`. -/
theorem ProcessConfig_patterns_counterexample :
    sampleDepsParseError.parse = .error (.msg "required variable is not present".toList) ∧
    ProcessConfig sampleDepsParseError =
      .error (.msg "required variable is not present".toList) ∧
    ¬ ∃ line ∈ Split '\n' "/x/*.xcresult".toList,
        TrimSpace line ≠ [] ∧ HasSuffix (TrimSpace line) ".xcresult".toList = false := by
  refine ⟨rfl, rfl, by decide⟩

theorem lookupNode_filter_ne (p q : Path) (nodes : List (Path × Node)) :
    lookupNode p (nodes.filter (fun kv => kv.1 ≠ q)) =
      if p = q then none else lookupNode p nodes := by
  induction nodes with
  | nil => simp [lookupNode]
  | cons kv rest ih =>
    obtain ⟨k, n⟩ := kv
    by_cases hk : k = q
    · subst hk
      simp only [List.filter_cons, ne_eq, not_true_eq_false, decide_False, Bool.false_eq_true,
        if_false, ih, lookupNode]
      by_cases hp : p = k
      · simp [hp]
      · have : ¬ k = p := fun h => hp h.symm
        simp [hp, this]
    · simp only [List.filter_cons, ne_eq, hk, not_false_eq_true, decide_True, if_true,
        lookupNode, ih]
      by_cases hkp : k = p
      · subst hkp
        simp [hk]
      · simp [hkp]

theorem get_set (fs : FS) (p : Path) (node : Node) (q : Path) :
    (fs.set p node).get q =
      if q = [] then some .dir else if q = p then some node else fs.get q := by
  unfold FS.get FS.set
  by_cases hq : q = []
  · simp [hq]
  · simp only [hq, if_false, lookupNode, lookupNode_filter_ne]
    by_cases hqp : q = p
    · subst hqp; simp
    · have : ¬ p = q := fun h => hqp h.symm
      simp [hqp, this]

theorem get_remove (fs : FS) (p q : Path) :
    (fs.remove p).get q =
      if q = [] then some .dir else if q = p then none else fs.get q := by
  unfold FS.get FS.remove
  by_cases hq : q = []
  · simp [hq]
  · simp only [hq, if_false, lookupNode_filter_ne]

theorem Split_append_sep (sep : Char) (a b : GoString) :
    Split sep (a ++ sep :: b) = Split sep a ++ Split sep b := by
  induction a with
  | nil => simp [Split]
  | cons x xs ih =>
    by_cases hx : x = sep
    · subst hx
      simp [Split, ih]
    · obtain ⟨l, ls, e1, e2⟩ := Split_cons_of_ne hx xs
      obtain ⟨l2, ls2, e3, e4⟩ := Split_cons_of_ne hx (xs ++ sep :: b)
      rw [List.cons_append, e4, e2]
      rw [ih, e1] at e3
      simp only [List.cons_append, List.cons.injEq] at e3
      obtain ⟨rfl, rfl⟩ := e3
      rfl

theorem Split_of_not_mem {sep : Char} {s : GoString} (h : sep ∉ s) : Split sep s = [s] := by
  induction s with
  | nil => rfl
  | cons x xs ih =>
    have hx : x ≠ sep := fun e => h (by simp [e])
    have hxs : sep ∉ xs := fun e => h (List.mem_cons_of_mem _ e)
    simp [Split, hx, ih hxs]

theorem not_mem_of_mem_Split {sep : Char} {s l : GoString} (h : l ∈ Split sep s) :
    sep ∉ l := by
  induction s generalizing l with
  | nil => simp [Split] at h; subst h; simp
  | cons x xs ih =>
    by_cases hx : x = sep
    · subst hx
      simp only [Split, if_true, List.mem_cons] at h
      rcases h with rfl | h
      · simp
      · exact ih h
    · obtain ⟨l0, ls, e1, e2⟩ := Split_cons_of_ne hx xs
      rw [e2] at h
      rcases List.mem_cons.1 h with rfl | h
      · intro hm
        rcases List.mem_cons.1 hm with e | hm
        · exact hx e.symm
        · exact ih (by rw [e1]; exact List.mem_cons_self _ _) hm
      · exact ih (by rw [e1]; exact List.mem_cons_of_mem _ h)

theorem Split_joinSep {out : List GoString} (hne : out ≠ [])
    (h : ∀ t ∈ out, '/' ∉ t) : Split '/' (joinSep out) = out := by
  induction out with
  | nil => exact absurd rfl hne
  | cons e es ih =>
    cases es with
    | nil => simpa [joinSep] using Split_of_not_mem (h e (List.mem_cons_self _ _))
    | cons e2 es2 =>
      simp only [joinSep]
      rw [Split_append_sep, Split_of_not_mem (h e (List.mem_cons_self _ _)),
        ih (by simp) (fun t ht => h t (List.mem_cons_of_mem _ ht))]
      rfl

theorem keptElems_cleanStep {rooted : Bool} {out : List GoString} {elem : GoString}
    (h : keptElems out) (he : '/' ∉ elem) : keptElems (cleanStep rooted out elem) := by
  have hpush : ¬ (elem = [] ∨ elem = ['.']) → keptElems (out ++ [elem]) := by
    intro hn t ht
    rcases List.mem_append.1 ht with ht | ht
    · exact h t ht
    · simp at ht
      subst ht
      exact ⟨fun e => hn (Or.inl e), fun e => hn (Or.inr e), he⟩
  unfold cleanStep
  split
  · exact h
  · rename_i hskip
    split
    · split
      · split
        · exact hpush hskip
        · exact fun t ht => h t (List.mem_of_mem_dropLast ht)
      · split
        · exact h
        · exact hpush hskip
    · exact hpush hskip

theorem keptElems_foldl (rooted : Bool) (xs : List GoString) (hx : ∀ t ∈ xs, '/' ∉ t)
    (out : List GoString) (h : keptElems out) :
    keptElems (xs.foldl (cleanStep rooted) out) := by
  induction xs generalizing out with
  | nil => exact h
  | cons e rest ih =>
    exact ih (fun t ht => hx t (List.mem_cons_of_mem _ ht)) _
      (keptElems_cleanStep h (hx e (List.mem_cons_self _ _)))

theorem resolveStep_kept {t : GoString} (h1 : t ≠ []) (h2 : t ≠ ['.']) (stack : Path) :
    resolveStep stack t = if t = ['.', '.'] then stack.dropLast else stack ++ [t] := by
  simp [resolveStep, h1, h2]

theorem isRooted_joinSep {out : List GoString} (h : keptElems out) :
    isRooted (joinSep out) = false := by
  cases out with
  | nil => rfl
  | cons e es =>
    have he := h e (List.mem_cons_self _ _)
    cases e with
    | nil => exact absurd rfl he.1
    | cons c cs =>
      have hc : c ≠ '/' := fun e => he.2.2 (by simp [e])
      cases es with
      | nil =>
        simp only [joinSep, isRooted]
        split
        · rename_i heq
          simp only [List.cons.injEq] at heq
          exact absurd heq.1 hc
        · rfl
      | cons e2 es2 =>
        simp only [joinSep, isRooted, List.cons_append]
        split
        · rename_i heq
          simp only [List.cons.injEq] at heq
          exact absurd heq.1 hc
        · rfl

theorem validName_iff (n : GoString) :
    validName n = true ↔ n ≠ [] ∧ n ≠ ['.'] ∧ n ≠ ['.', '.'] ∧ '/' ∉ n := by
  simp [validName, and_assoc]

theorem isRooted_append {a : GoString} (ha : a ≠ []) (b : GoString) :
    isRooted (a ++ b) = isRooted a := by
  cases a with
  | nil => exact absurd rfl ha
  | cons c cs =>
    by_cases hc : c = '/'
    · subst hc; rfl
    · have h1 : ∀ t : GoString, isRooted (c :: t) = false := by
        intro t
        simp only [isRooted]
        split
        · rename_i heq
          simp only [List.cons.injEq] at heq
          exact absurd heq.1 hc
        · rfl
      rw [List.cons_append, h1, h1]

theorem Base_validName {n : GoString} (hn : validName n = true) : Base n = n := by
  obtain ⟨h1, h2, h3, h4⟩ := (validName_iff n).1 hn
  unfold Base
  rw [if_neg h1]
  have hd : n.reverse.dropWhile (· == '/') = n.reverse := by
    cases hr : n.reverse with
    | nil => rfl
    | cons c cs =>
      have : c ∈ n := by
        have : c ∈ n.reverse := by rw [hr]; exact List.mem_cons_self _ _
        simpa using this
      have hc : c ≠ '/' := fun e => h4 (e ▸ this)
      simp [List.dropWhile_cons, hc]
  have ht : n.reverse.takeWhile (· != '/') = n.reverse := by
    rw [List.takeWhile_eq_self_iff]
    intro c hc
    have : c ∈ n := by simpa using hc
    have hc : c ≠ '/' := fun e => h4 (e ▸ this)
    simp [hc]
  simp only [hd, ht, List.reverse_reverse]
  rw [if_neg h1]

theorem get_nil (fs : FS) : fs.get [] = some .dir := by simp [FS.get]

theorem walk_error (fs : FS) (err : Err) (xs : List GoString) :
    xs.foldl (walkStep fs) (.error err) = .error err := by
  induction xs with
  | nil => rfl
  | cons e rest ih => simpa [walkStep] using ih

theorem walk_snoc (fs : FS) (acc : Except Err Path) (xs : List GoString) (e : GoString) :
    (xs ++ [e]).foldl (walkStep fs) acc = walkStep fs (xs.foldl (walkStep fs) acc) e := by
  rw [List.foldl_append]
  rfl

theorem walkStep_dir {fs : FS} {st : Path} (h : fs.get st = some .dir) (e : GoString) :
    walkStep fs (.ok st) e = .ok (resolveStep st e) := by
  simp [walkStep, h]

theorem walkStep_ok {fs : FS} {acc : Except Err Path} {e : GoString} {p : Path}
    (h : walkStep fs acc e = .ok p) :
    ∃ st, acc = .ok st ∧
      ((fs.get st = some .dir ∧ p = resolveStep st e) ∨
        (fs.get st = none ∧ e = [] ∧ p = st)) := by
  cases acc with
  | error err => simp [walkStep] at h
  | ok st =>
    refine ⟨st, rfl, ?_⟩
    simp only [walkStep] at h
    split at h
    · rename_i hg
      cases h
      exact Or.inl ⟨hg, rfl⟩
    · cases h
    · rename_i hg
      split at h
      · rename_i he
        cases h
        exact Or.inr ⟨hg, he, rfl⟩
      · cases h

theorem resolveStep_push {t : GoString} (h1 : t ≠ []) (h2 : t ≠ ['.']) (h3 : t ≠ ['.', '.'])
    (stack : Path) : resolveStep stack t = stack ++ [t] := by
  simp [resolveStep, h1, h2, h3]

theorem walk_clean (fs : FS) (rooted : Bool) (init : Path) (hinit : rooted = true → init = [])
    (xs : List GoString) (hx : ∀ t ∈ xs, '/' ∉ t) (st : Path)
    (h : xs.foldl (walkStep fs) (.ok init) = .ok st) :
    (xs.foldl (cleanStep rooted) []).foldl (walkStep fs) (.ok init) = .ok st := by
  induction xs using List.reverseRecOn generalizing st with
  | nil => exact h
  | append_singleton xs e ih =>
    have hx2 : ∀ t ∈ xs, '/' ∉ t := fun t ht => hx t (List.mem_append_left _ ht)
    have hk := keptElems_foldl rooted xs hx2 [] (fun t ht => by simp at ht)
    rw [walk_snoc] at h
    obtain ⟨st0, h0, hcase⟩ := walkStep_ok h
    have ih := ih hx2 st0 h0
    rw [List.foldl_append, List.foldl_cons, List.foldl_nil]
    generalize xs.foldl (cleanStep rooted) [] = out at hk ih
    have hpush : fs.get st0 = some .dir → st = resolveStep st0 e →
        (out ++ [e]).foldl (walkStep fs) (.ok init) = .ok st := by
      intro hg hst
      rw [walk_snoc, ih, walkStep_dir hg, hst]
    rcases hcase with ⟨hg, hst⟩ | ⟨hg, he, hst⟩
    · unfold cleanStep
      split
      · rename_i hskip
        have : st = st0 := by
          rw [hst]
          rcases hskip with h1 | h1 <;> simp [resolveStep, h1]
        rw [this]
        exact ih
      · rename_i hskip
        split
        · rename_i hdd
          split
          · rename_i top htop
            split
            · exact hpush hg hst
            · rename_i hne
              obtain ⟨out2, rfl⟩ : ∃ out2, out = out2 ++ [top] := by
                rcases List.eq_nil_or_concat out with rfl | ⟨l, b, rfl⟩
                · simp at htop
                · rw [List.concat_eq_append] at htop ⊢
                  simp at htop; subst htop; exact ⟨l, rfl⟩
              have hkt := hk top (by simp)
              rw [walk_snoc] at ih
              obtain ⟨st1, h1, hc1⟩ := walkStep_ok ih
              rw [List.dropLast_concat, h1]
              rcases hc1 with ⟨_, hs1⟩ | ⟨_, ht, _⟩
              · rw [resolveStep_push hkt.1 hkt.2.1 hne] at hs1
                rw [hst, hdd, hs1]
                simp [resolveStep]
              · exact absurd ht hkt.1
          · rename_i hnone
            have : out = [] := by
              rcases List.eq_nil_or_concat out with rfl | ⟨l, b, rfl⟩
              · rfl
              · rw [List.concat_eq_append] at hnone
                simp at hnone
            subst this
            split
            · rename_i hr
              simp only [List.foldl_nil, Except.ok.injEq] at ih ⊢
              rw [hst, hdd, ← ih, hinit hr]
              simp [resolveStep]
            · exact hpush hg hst
        · exact hpush hg hst
    · subst he
      rw [hst]
      simpa [cleanStep] using ih

theorem Split_first_ne_nil {s : GoString} (hne : s ≠ []) (hr : isRooted s = false) :
    ∃ c rest, Split '/' s = c :: rest ∧ c ≠ [] := by
  cases s with
  | nil => exact absurd rfl hne
  | cons x xs =>
    have hx : x ≠ '/' := by
      intro h
      subst h
      simp [isRooted] at hr
    obtain ⟨l, ls, _, e2⟩ := Split_cons_of_ne hx xs
    exact ⟨x :: l, ls, e2, by simp⟩

theorem walk_first_dir {fs : FS} {init p : Path} {c : GoString} {rest : List GoString}
    (hc : c ≠ []) (h : (c :: rest).foldl (walkStep fs) (.ok init) = .ok p) :
    fs.get init = some .dir := by
  rw [List.foldl_cons] at h
  cases hw : walkStep fs (.ok init) c with
  | error err => rw [hw, walk_error] at h; cases h
  | ok q =>
    obtain ⟨st, hst, hcase⟩ := walkStep_ok hw
    cases hst
    rcases hcase with ⟨hg, _⟩ | ⟨_, he, _⟩
    · exact hg
    · exact absurd he hc

theorem resolve_Clean {fs : FS} {path : GoString} {p : Path} (hne : path ≠ [])
    (h : fs.resolve path = .ok p) : fs.resolve (Clean path) = .ok p := by
  have hx : ∀ t ∈ Split '/' path, '/' ∉ t := fun t ht => not_mem_of_mem_Split ht
  have hk := keptElems_foldl (isRooted path) (Split '/' path) hx [] (fun t ht => by simp at ht)
  unfold FS.resolve at h
  have key := walk_clean fs (isRooted path)
    (if isRooted path then [] else fs.cwd) (by intro h; simp [h]) (Split '/' path) hx p h
  unfold Clean
  rw [if_neg hne]
  simp only
  generalize (Split '/' path).foldl (cleanStep (isRooted path)) [] = out at hk key
  unfold FS.resolve
  cases hr : isRooted path with
  | true =>
    rw [hr] at key h
    simp only [if_true] at key ⊢
    have h1 : isRooted ('/' :: joinSep out) = true := rfl
    rw [h1]
    simp only [Split, if_true, List.foldl_cons]
    rw [walkStep_dir (get_nil fs)]
    have h2 : resolveStep [] [] = [] := by simp [resolveStep]
    rw [h2]
    by_cases ho : out = []
    · subst ho
      simp only [List.foldl_nil, Except.ok.injEq] at key
      subst key
      simp [joinSep, Split, walkStep_dir (get_nil fs), resolveStep]
    · rw [Split_joinSep ho (fun t ht => (hk t ht).2.2)]
      exact key
  | false =>
    rw [hr] at key h
    simp only [Bool.false_eq_true, if_false] at key h ⊢
    by_cases ho : out = []
    · subst ho
      simp only [List.foldl_nil, Except.ok.injEq] at key
      subst key
      obtain ⟨c, rest, hs, hc⟩ := Split_first_ne_nil hne hr
      rw [hs] at h
      have hd := walk_first_dir hc h
      have h3 : isRooted ['.'] = false := by decide
      have h4 : Split '/' ['.'] = [['.']] := by decide
      simp only [if_true, h3, h4, Bool.false_eq_true, if_false, List.foldl_cons, List.foldl_nil]
      rw [walkStep_dir hd]
      simp [resolveStep]
    · rw [if_neg ho, isRooted_joinSep hk, Split_joinSep ho (fun t ht => (hk t ht).2.2)]
      simpa using key

theorem resolve_Join {fs : FS} {dir n : GoString} {b : Path} (hd : dir ≠ [])
    (hn : validName n = true) (hb : fs.resolve dir = .ok b) (hbd : fs.get b = some .dir) :
    fs.resolve (Join [dir, n]) = .ok (b ++ [n]) := by
  obtain ⟨h1, h2, h3, h4⟩ := (validName_iff n).1 hn
  have hj : Join [dir, n] = Clean (dir ++ '/' :: n) := by
    simp [Join, List.dropWhile_cons, hd, joinSep]
  rw [hj]
  apply resolve_Clean (by simp [hd])
  unfold FS.resolve at hb ⊢
  rw [isRooted_append hd, Split_append_sep, Split_of_not_mem h4, walk_snoc, hb,
    walkStep_dir hbd, resolveStep_push h1 h2 h3]

theorem joinSep_ne_nil {out : List GoString} (hne : out ≠ []) (hk : keptElems out) :
    joinSep out ≠ [] := by
  cases out with
  | nil => exact absurd rfl hne
  | cons e es =>
    have he := (hk e (List.mem_cons_self _ _)).1
    cases es with
    | nil => simpa [joinSep] using he
    | cons e2 es2 => simp [joinSep]

theorem Clean_ne_nil (path : GoString) : Clean path ≠ [] := by
  have hx : ∀ t ∈ Split '/' path, '/' ∉ t := fun t ht => not_mem_of_mem_Split ht
  have hk := keptElems_foldl (isRooted path) (Split '/' path) hx [] (fun t ht => by simp at ht)
  unfold Clean
  split
  · simp
  · simp only
    split
    · simp
    · split
      · simp
      · rename_i ho
        exact joinSep_ne_nil ho hk

theorem Join_ne_nil {dir : GoString} (hd : dir ≠ []) {n : GoString} : Join [dir, n] ≠ [] := by
  have hj : Join [dir, n] = Clean (dir ++ '/' :: n) := by
    simp [Join, List.dropWhile_cons, hd, joinSep]
  rw [hj]
  exact Clean_ne_nil _

theorem walk_preserved {fs fs2 : FS}
    (hdir : ∀ q, fs.get q = some .dir → fs2.get q = some .dir) (init : Path)
    (xs : List GoString) (p : Path) (h : xs.foldl (walkStep fs) (.ok init) = .ok p)
    (hp : ∀ c, fs2.get p ≠ some (.file c)) :
    xs.foldl (walkStep fs2) (.ok init) = .ok p := by
  induction xs using List.reverseRecOn generalizing p with
  | nil => exact h
  | append_singleton xs e ih =>
    rw [walk_snoc] at h ⊢
    obtain ⟨st0, h0, hcase⟩ := walkStep_ok h
    rcases hcase with ⟨hg, hst⟩ | ⟨hg, he, hst⟩
    · have hg2 := hdir st0 hg
      rw [ih st0 h0 (by intro c hc; rw [hg2] at hc; cases hc), walkStep_dir hg2, hst]
    · subst hst
      rw [ih p h0 hp]
      subst he
      simp only [walkStep]
      cases hg2 : fs2.get p with
      | none => simp
      | some node =>
        cases node with
        | dir => simp [resolveStep]
        | file c => exact absurd hg2 (hp c)

theorem resolve_preserved {fs fs2 : FS} (hcwd : fs2.cwd = fs.cwd)
    (hdir : ∀ q, fs.get q = some .dir → fs2.get q = some .dir) {path : GoString} {p : Path}
    (h : fs.resolve path = .ok p) (hp : ∀ c, fs2.get p ≠ some (.file c)) :
    fs2.resolve path = .ok p := by
  unfold FS.resolve at h ⊢
  rw [hcwd]
  exact walk_preserved hdir _ _ p h hp

theorem walkStep_sameShape {fs fs2 : FS} (h : sameShape fs fs2) :
    walkStep fs2 = walkStep fs := by
  funext acc e
  cases acc with
  | error err => rfl
  | ok st =>
    have hq := h.2 st
    simp only [walkStep]
    cases h1 : fs.get st with
    | none =>
      rw [h1] at hq
      simp only [Option.map_none', Option.map_eq_none'] at hq
      rw [hq]
    | some node =>
      rw [h1] at hq
      cases h2 : fs2.get st with
      | none => rw [h2] at hq; simp at hq
      | some node2 =>
        rw [h2] at hq
        simp only [Option.map_some', Option.some.injEq] at hq
        cases node <;> cases node2 <;> simp_all [Node.isDir]

theorem resolve_sameShape {fs fs2 : FS} (h : sameShape fs fs2) (path : GoString) :
    fs2.resolve path = fs.resolve path := by
  unfold FS.resolve
  rw [walkStep_sameShape h, h.1]

theorem lookupNode_some {p : Path} {nodes : List (Path × Node)} {node : Node}
    (h : lookupNode p nodes = some node) : (p, node) ∈ nodes := by
  induction nodes with
  | nil => simp [lookupNode] at h
  | cons kv rest ih =>
    obtain ⟨k, n⟩ := kv
    simp only [lookupNode] at h
    split at h
    · rename_i hk
      cases h
      subst hk
      exact List.mem_cons_self _ _
    · exact List.mem_cons_of_mem _ (ih h)

theorem get_snoc (fs : FS) (p : Path) (n : GoString) :
    fs.get (p ++ [n]) = lookupNode (p ++ [n]) fs.nodes := by
  simp [FS.get]

theorem mem_childNames {fs : FS} {p : Path} {n : GoString} :
    n ∈ fs.childNames p ↔ ∃ node, (p ++ [n], node) ∈ fs.nodes := by
  unfold FS.childNames
  rw [List.mem_dedup, List.mem_filterMap]
  constructor
  · rintro ⟨⟨k, node⟩, hmem, hk⟩
    simp only at hk
    split at hk
    · rename_i hc
      obtain ⟨hne, hdl⟩ := hc
      have := List.dropLast_append_getLast? n hk
      rw [hdl] at this
      rw [this]
      exact ⟨node, hmem⟩
    · cases hk
  · rintro ⟨node, hmem⟩
    refine ⟨(p ++ [n], node), hmem, ?_⟩
    simp

theorem mem_children {fs : FS} {p : Path} {e : DirEntry} :
    e ∈ fs.children p ↔
      ∃ node, fs.get (p ++ [e.name]) = some node ∧ e.isDir = node.isDir := by
  unfold FS.children
  rw [List.mem_filterMap]
  constructor
  · rintro ⟨n, _, hn⟩
    cases hg : fs.get (p ++ [n]) with
    | none => rw [hg] at hn; cases hn
    | some node =>
      rw [hg] at hn
      simp only [Option.map_some', Option.some.injEq] at hn
      subst hn
      exact ⟨node, hg, rfl⟩
  · rintro ⟨node, hg, hd⟩
    refine ⟨e.name, ?_, ?_⟩
    · rw [(List.perm_insertionSort _ _).mem_iff, mem_childNames]
      rw [get_snoc] at hg
      exact ⟨node, lookupNode_some hg⟩
    · rw [hg]
      simp only [Option.map_some', Option.some.injEq]
      cases e
      simp_all

theorem children_names_nodup (fs : FS) (p : Path) :
    ((fs.children p).map DirEntry.name).Nodup := by
  unfold FS.children
  have hnd : ((fs.childNames p).insertionSort (fun a b => a ≤ b)).Nodup :=
    (List.perm_insertionSort _ _).nodup_iff.2 (List.nodup_dedup _)
  generalize (fs.childNames p).insertionSort (fun a b => a ≤ b) = l at hnd
  induction l with
  | nil => simp
  | cons n rest ih =>
    rw [List.nodup_cons] at hnd
    rw [List.filterMap_cons]
    split
    · exact ih hnd.2
    · rename_i e he
      rw [List.map_cons, List.nodup_cons]
      refine ⟨?_, ih hnd.2⟩
      have hname : e.name = n := by
        cases hg : fs.get (p ++ [n]) with
        | none => rw [hg] at he; cases he
        | some node =>
          rw [hg] at he
          simp only [Option.map_some', Option.some.injEq] at he
          subst he
          rfl
      rw [hname]
      intro hmem
      rw [List.mem_map] at hmem
      obtain ⟨e2, he2, hn2⟩ := hmem
      rw [List.mem_filterMap] at he2
      obtain ⟨m, hm, hm2⟩ := he2
      have : e2.name = m := by
        cases hg : fs.get (p ++ [m]) with
        | none => rw [hg] at hm2; cases hm2
        | some node =>
          rw [hg] at hm2
          simp only [Option.map_some', Option.some.injEq] at hm2
          subst hm2
          rfl
      rw [this] at hn2
      subst hn2
      exact hnd.1 hm

theorem children_validName {fs : FS} (hvalid : fs.validNames = true) {p : Path} {e : DirEntry}
    (he : e ∈ fs.children p) : validName e.name = true := by
  obtain ⟨node, hg, _⟩ := mem_children.1 he
  rw [get_snoc] at hg
  have hmem := lookupNode_some hg
  unfold FS.validNames at hvalid
  rw [List.all_eq_true] at hvalid
  have := hvalid _ hmem
  rw [List.all_eq_true] at this
  exact this e.name (by simp)

theorem snoc_inj {a b : Path} {x y : GoString} (h : a ++ [x] = b ++ [y]) : a = b ∧ x = y := by
  have := congrArg List.reverse h
  simp only [List.reverse_append, List.reverse_singleton, List.singleton_append,
    List.cons.injEq, List.reverse_inj] at this
  exact ⟨this.2, this.1⟩

theorem get_rename_file (fs : FS) (o n : Path) (c : GoString) (q : Path) :
    ((fs.remove o).set n (.file c)).get q =
      if q = [] then some .dir else if q = n then some (.file c)
      else if q = o then none else fs.get q := by
  rw [get_set, get_remove]
  by_cases hq : q = []
  · simp [hq]
  · simp [hq]

theorem ReadDir_ok {fs : FS} {name : GoString} {entries : List DirEntry}
    (h : ReadDir fs name = .ok entries) :
    ∃ b, name ≠ [] ∧ fs.resolve name = .ok b ∧ fs.get b = some .dir ∧
      entries = fs.children b := by
  unfold ReadDir at h
  split at h
  · cases h
  · rename_i hn
    split at h
    · cases h
    · rename_i b hb
      split at h
      · rename_i hg
        cases h
        exact ⟨b, hn, hb, hg, rfl⟩
      · cases h
      · cases h

theorem Mkdir_ok {fs fs2 : FS} {name : GoString} (h : Mkdir fs name = .ok fs2) :
    ∃ a, name ≠ [] ∧ fs.resolve name = .ok a ∧ fs.get a = none ∧
      fs2 = { fs with nodes := (a, .dir) :: fs.nodes } := by
  unfold Mkdir at h
  split at h
  · cases h
  · rename_i hn
    split at h
    · cases h
    · rename_i a ha
      split at h
      · cases h
      · rename_i hg
        split at h
        · cases h
          exact ⟨a, hn, ha, hg, rfl⟩
        · cases h
        · cases h

theorem get_mkdir (fs : FS) (a q : Path) (ha : a ≠ []) :
    ({ fs with nodes := (a, .dir) :: fs.nodes } : FS).get q =
      if q = a then some .dir else fs.get q := by
  unfold FS.get
  by_cases hq : q = []
  · subst hq
    have : ¬ [] = a := fun h => ha h.symm
    simp [this]
  · simp only [hq, if_false, lookupNode]
    by_cases hqa : q = a
    · subst hqa; simp
    · have : ¬ a = q := fun h => hqa h.symm
      simp [hqa, this]

theorem Rename_file {fs fs2 : FS} {oldpath newpath c : GoString} {o n : Path}
    (h : Rename fs oldpath newpath = .ok fs2)
    (ho : fs.resolve oldpath = .ok o) (hn : fs.resolve newpath = .ok n)
    (hsrc : fs.get o = some (.file c)) (hne : o ≠ n) :
    fs2 = (fs.remove o).set n (.file c) ∧ fs.get n ≠ some .dir := by
  unfold Rename at h
  split at h
  · cases h
  · simp only [ho, hn, hsrc, if_neg hne] at h
    split at h
    · cases h
    · rename_i hdst
      split at h
      · cases h
      · cases h
        exact ⟨rfl, fun hd => hdst hd⟩

theorem ReadFile_ok {fs : FS} {name content : GoString} :
    ReadFile fs name = .ok content ↔
      name ≠ [] ∧ ∃ p, fs.resolve name = .ok p ∧ fs.get p = some (.file content) := by
  unfold ReadFile
  constructor
  · intro h
    split at h
    · cases h
    · rename_i hn
      split at h
      · cases h
      · rename_i p hp
        split at h
        · rename_i c hg
          cases h
          exact ⟨hn, p, hp, hg⟩
        · cases h
        · cases h
  · rintro ⟨hn, p, hp, hg⟩
    rw [if_neg hn, hp]
    simp only [hg]

theorem WriteFile_ok {fs fs2 : FS} {name data : GoString} (h : WriteFile fs name data = .ok fs2) :
    ∃ p, fs.resolve name = .ok p ∧ fs2 = fs.set p (.file data) := by
  unfold WriteFile at h
  split at h
  · cases h
  · split at h
    · cases h
    · rename_i p hp
      refine ⟨p, hp, ?_⟩
      split at h
      · cases h
      · split at h
        · cases h; rfl
        · cases h
        · cases h

theorem sameShape_refl (fs : FS) : sameShape fs fs := ⟨rfl, fun _ => rfl⟩

theorem sameShape_trans {fs1 fs2 fs3 : FS} (h1 : sameShape fs1 fs2) (h2 : sameShape fs2 fs3) :
    sameShape fs1 fs3 :=
  ⟨h2.1.trans h1.1, fun q => (h2.2 q).trans (h1.2 q)⟩

theorem sameShape_set_file {fs : FS} {p : Path} {c : GoString} (data : GoString)
    (h : fs.get p = some (.file c)) : sameShape fs (fs.set p (.file data)) := by
  refine ⟨rfl, ?_⟩
  intro q
  rw [get_set]
  by_cases hq : q = []
  · rw [if_pos hq, hq, get_nil]
  · rw [if_neg hq]
    by_cases hqp : q = p
    · rw [if_pos hqp, hqp, h]
      rfl
    · rw [if_neg hqp]

theorem injectFile_ok {fs fs2 : FS} {htmlFile : GoString}
    (h : injectFile fs htmlFile = (none, fs2)) :
    ∃ content p, ReadFile fs htmlFile = .ok content ∧ fs.resolve htmlFile = .ok p ∧
      fs.get p = some (.file content) ∧ fs2 = fs.set p (.file (injectContent content)) := by
  unfold injectFile at h
  cases hr : ReadFile fs htmlFile with
  | error err => rw [hr] at h; cases h
  | ok content =>
    rw [hr] at h
    simp only at h
    cases hw : WriteFile fs htmlFile (injectContent content) with
    | error err => rw [hw] at h; cases h
    | ok fs3 =>
      rw [hw] at h
      cases h
      obtain ⟨_, p, hp, hg⟩ := ReadFile_ok.1 hr
      obtain ⟨p2, hp2, hfs⟩ := WriteFile_ok hw
      rw [hp] at hp2
      cases hp2
      exact ⟨content, p, rfl, hp, hg, hfs⟩

theorem injectFile_error {fs fs2 : FS} {htmlFile : GoString} {err : Err}
    (h : injectFile fs htmlFile = (some err, fs2)) : fs2 = fs := by
  unfold injectFile at h
  cases hr : ReadFile fs htmlFile with
  | error e =>
    rw [hr] at h
    simp only [Prod.mk.injEq] at h
    exact h.2.symm
  | ok content =>
    rw [hr] at h
    simp only at h
    cases hw : WriteFile fs htmlFile (injectContent content) with
    | error e =>
      rw [hw] at h
      simp only [Prod.mk.injEq] at h
      exact h.2.symm
    | ok fs3 =>
      rw [hw] at h
      simp at h

theorem injectFiles_spec (files : List GoString) (fs fs2 : FS) (r : Option Err)
    (hdistinct : files.Pairwise (fun f g => fs.resolve f ≠ fs.resolve g))
    (hrun : injectFiles files fs = (r, fs2)) :
    sameShape fs fs2 ∧
    (∀ q, (∀ f ∈ files, fs.resolve f ≠ .ok q) → fs2.get q = fs.get q) ∧
    (∀ f ∈ files, ∀ content, ReadFile fs f = .ok content →
      ReadFile fs2 f = .ok (injectContent content) ∨
      (r ≠ none ∧ ReadFile fs2 f = .ok content)) := by
  induction files generalizing fs with
  | nil =>
    simp only [injectFiles, Prod.mk.injEq] at hrun
    obtain ⟨_, rfl⟩ := hrun
    exact ⟨sameShape_refl fs, fun _ _ => rfl, fun f hf => by simp at hf⟩
  | cons f rest ih =>
    rw [List.pairwise_cons] at hdistinct
    simp only [injectFiles] at hrun
    cases h1 : injectFile fs f with
    | mk r1 fs1 =>
      rw [h1] at hrun
      cases r1 with
      | some err =>
        simp only [Prod.mk.injEq] at hrun
        obtain ⟨hr, hfs⟩ := hrun
        have := injectFile_error h1
        subst this
        subst hfs
        refine ⟨sameShape_refl _, fun _ _ => rfl, ?_⟩
        intro g _ content hread
        exact Or.inr ⟨by rw [← hr]; simp, hread⟩
      | none =>
        simp only at hrun
        obtain ⟨content, p, hread, hp, hg, hfs1⟩ := injectFile_ok h1
        have hp0 : p ≠ [] := by
          intro h
          rw [h, get_nil] at hg
          cases hg
        have hshape1 : sameShape fs fs1 := hfs1 ▸ sameShape_set_file _ hg
        have hres1 : ∀ g, fs1.resolve g = fs.resolve g := resolve_sameShape hshape1
        have hget1 : ∀ q, q ≠ p → fs1.get q = fs.get q := by
          intro q hq
          rw [hfs1, get_set]
          by_cases hq0 : q = []
          · rw [if_pos hq0, hq0, get_nil]
          · rw [if_neg hq0, if_neg hq]
        obtain ⟨i1, i2, i3⟩ := ih fs1
          (hdistinct.2.imp (fun {a b} hab => by rw [hres1, hres1]; exact hab)) hrun
        have hshape : sameShape fs fs2 := sameShape_trans hshape1 i1
        refine ⟨hshape, ?_, ?_⟩
        · intro q hq
          rw [i2 q (fun g hg2 => by rw [hres1]; exact hq g (List.mem_cons_of_mem _ hg2))]
          apply hget1
          intro hqp
          exact hq f (List.mem_cons_self _ _) (hqp ▸ hp)
        · intro g hg2 c2 hread2
          rcases List.mem_cons.1 hg2 with rfl | hg2
          · left
            rw [hread] at hread2
            cases hread2
            rw [ReadFile_ok]
            refine ⟨(ReadFile_ok.1 hread).1, p, ?_, ?_⟩
            · rw [resolve_sameShape hshape, hp]
            · rw [i2 p (fun g2 hg3 => by
                rw [hres1, ← hp]
                exact fun h => hdistinct.1 g2 hg3 h.symm)]
              rw [hfs1, get_set, if_neg hp0, if_pos rfl]
          · apply i3 g hg2 c2
            obtain ⟨hn, q, hq, hgq⟩ := ReadFile_ok.1 hread2
            rw [ReadFile_ok]
            refine ⟨hn, q, (hres1 g).trans hq, ?_⟩
            rw [hget1 q ?_]
            · exact hgq
            · intro hqp
              rw [hqp, ← hp] at hq
              exact hdistinct.1 g hg2 hq.symm

theorem get_parent {fs : FS} (hwf : fs.parentsAreDirs = true) {p : Path} {node : Node}
    (h : fs.get p = some node) : fs.get p.dropLast = some .dir := by
  by_cases hp : p = []
  · subst hp
    exact get_nil fs
  · unfold FS.get at h
    rw [if_neg hp] at h
    have hmem := lookupNode_some h
    unfold FS.parentsAreDirs at hwf
    rw [List.all_eq_true] at hwf
    simpa using hwf _ hmem

theorem sameShape_dir {fs fs2 : FS} (h : sameShape fs fs2) {q : Path}
    (hq : fs.get q = some .dir) : fs2.get q = some .dir := by
  have := h.2 q
  rw [hq] at this
  cases h2 : fs2.get q with
  | none => rw [h2] at this; simp at this
  | some node =>
    rw [h2] at this
    cases node with
    | dir => rfl
    | file c => simp [Node.isDir] at this

theorem parentsAreDirs_set_file {fs : FS} (hwf : fs.parentsAreDirs = true) {p : Path}
    {c : GoString} (data : GoString) (h : fs.get p = some (.file c)) :
    (fs.set p (.file data)).parentsAreDirs = true := by
  have hshape := sameShape_set_file data h
  unfold FS.parentsAreDirs
  rw [List.all_eq_true]
  intro kv hkv
  have hkv2 : kv.1 = p ∨ kv ∈ fs.nodes := by
    simp only [FS.set, List.mem_cons, List.mem_filter] at hkv
    rcases hkv with rfl | ⟨h1, _⟩
    · exact Or.inl rfl
    · exact Or.inr h1
  have hpar : fs.get kv.1.dropLast = some .dir := by
    rcases hkv2 with h1 | h1
    · rw [h1]
      exact get_parent hwf h
    · unfold FS.parentsAreDirs at hwf
      rw [List.all_eq_true] at hwf
      simpa using hwf _ h1
  simpa using sameShape_dir hshape hpar

theorem injectFile_succeeds {fs : FS} (hwf : fs.parentsAreDirs = true) {htmlFile content : GoString}
    (hread : ReadFile fs htmlFile = .ok content) :
    ∃ fs2, injectFile fs htmlFile = (none, fs2) := by
  obtain ⟨hn, p, hp, hg⟩ := ReadFile_ok.1 hread
  unfold injectFile
  rw [hread]
  simp only
  unfold WriteFile
  rw [if_neg hn, hp]
  simp only [hg, get_parent hwf hg]
  exact ⟨_, rfl⟩

theorem injectFiles_succeeds (files : List GoString) (fs : FS)
    (hwf : fs.parentsAreDirs = true)
    (hdistinct : files.Pairwise (fun f g => fs.resolve f ≠ fs.resolve g))
    (hreadable : ∀ f ∈ files, ∃ content, ReadFile fs f = .ok content) :
    (injectFiles files fs).1 = none := by
  induction files generalizing fs with
  | nil => rfl
  | cons f rest ih =>
    rw [List.pairwise_cons] at hdistinct
    obtain ⟨content, hread⟩ := hreadable f (List.mem_cons_self _ _)
    obtain ⟨fs1, h1⟩ := injectFile_succeeds hwf hread
    simp only [injectFiles, h1]
    obtain ⟨c0, p, hread0, hp, hg, hfs1⟩ := injectFile_ok h1
    have hshape1 : sameShape fs fs1 := hfs1 ▸ sameShape_set_file _ hg
    have hres1 : ∀ g, fs1.resolve g = fs.resolve g := resolve_sameShape hshape1
    apply ih fs1 (hfs1 ▸ parentsAreDirs_set_file hwf _ hg)
      (hdistinct.2.imp (fun {a b} hab => by rw [hres1, hres1]; exact hab))
    intro g hg2
    obtain ⟨c2, hread2⟩ := hreadable g (List.mem_cons_of_mem _ hg2)
    refine ⟨c2, ?_⟩
    obtain ⟨hn, q, hq, hgq⟩ := ReadFile_ok.1 hread2
    rw [ReadFile_ok]
    refine ⟨hn, q, (hres1 g).trans hq, ?_⟩
    rw [hfs1, get_set]
    have hq0 : q ≠ [] := by
      intro h
      rw [h, get_nil] at hgq
      cases hgq
    have hqp : q ≠ p := by
      intro h
      rw [h, ← hp] at hq
      exact hdistinct.1 g hg2 hq.symm
    rw [if_neg hq0, if_neg hqp]
    exact hgq

theorem injectGoogleAnalytics_succeeds {d : Deps} {fs : FS} {htmlReportDir : GoString}
    {htmlFiles : List GoString}
    (hglob : d.filepathGlob fs (Join [htmlReportDir, "*.html".toList]) = .ok htmlFiles)
    (hdistinct : htmlFiles.Pairwise (fun f g => fs.resolve f ≠ fs.resolve g))
    (hwf : fs.parentsAreDirs = true)
    (hreadable : ∀ f ∈ htmlFiles, ∃ content, ReadFile fs f = .ok content) :
    (injectGoogleAnalytics d htmlReportDir fs).1 = none := by
  unfold injectGoogleAnalytics
  rw [hglob]
  exact injectFiles_succeeds htmlFiles fs hwf hdistinct hreadable

theorem injectGoogleAnalytics_content {d : Deps} {fs : FS} {htmlReportDir : GoString}
    {htmlFiles : List GoString}
    (hglob : d.filepathGlob fs (Join [htmlReportDir, "*.html".toList]) = .ok htmlFiles)
    (hdistinct : htmlFiles.Pairwise (fun f g => fs.resolve f ≠ fs.resolve g))
    {htmlFile content : GoString} (hmem : htmlFile ∈ htmlFiles)
    (hread : ReadFile fs htmlFile = .ok content) :
    ReadFile (injectGoogleAnalytics d htmlReportDir fs).2 htmlFile =
        .ok (injectContent content) ∨
    ((injectGoogleAnalytics d htmlReportDir fs).1 ≠ none ∧
      ReadFile (injectGoogleAnalytics d htmlReportDir fs).2 htmlFile = .ok content) := by
  unfold injectGoogleAnalytics
  rw [hglob]
  simp only
  exact (injectFiles_spec htmlFiles fs _ _ hdistinct rfl).2.2 htmlFile hmem content hread

/-- C4: for every HTML file that `injectGoogleAnalytics` finds in the report directory (the
glob returns no file twice) and whose content contains `</head>`, the content that
`injectGoogleAnalytics` writes back is the original content with the telemetry snippet inserted
directly before the first occurrence of `</head>` and everything else unchanged, so the
snippet is inserted exactly once, however often `</head>` or `<head>` occurs. After the call
the file holds exactly that content; only when the call fails before reaching the file does
the file still hold its original content. -/
theorem injectGoogleAnalytics_before_closing_head (d : Deps) (fs : FS)
    (htmlReportDir : GoString) (htmlFiles : List GoString)
    (hglob : d.filepathGlob fs (Join [htmlReportDir, "*.html".toList]) = .ok htmlFiles)
    (hdistinct : htmlFiles.Pairwise (fun f g => fs.resolve f ≠ fs.resolve g))
    (htmlFile content : GoString) (hmem : htmlFile ∈ htmlFiles)
    (hread : ReadFile fs htmlFile = .ok content)
    (hhead : Contains content "</head>".toList = true) :
    ∃ pre post, content = pre ++ "</head>".toList ++ post ∧
      (∀ pre2 post2, content = pre2 ++ "</head>".toList ++ post2 → pre.length ≤ pre2.length) ∧
      (ReadFile (injectGoogleAnalytics d htmlReportDir fs).2 htmlFile =
          .ok (pre ++ googleAnalyticsScript ++ "</head>".toList ++ post) ∨
        ((injectGoogleAnalytics d htmlReportDir fs).1 ≠ none ∧
          ReadFile (injectGoogleAnalytics d htmlReportDir fs).2 htmlFile = .ok content)) ∧
      (fs.parentsAreDirs = true →
        (∀ f ∈ htmlFiles, ∃ c, ReadFile fs f = .ok c) →
        (injectGoogleAnalytics d htmlReportDir fs).1 = none ∧
        ReadFile (injectGoogleAnalytics d htmlReportDir fs).2 htmlFile =
          .ok (pre ++ googleAnalyticsScript ++ "</head>".toList ++ post)) := by
  obtain ⟨pre, post, h1, h2, h3⟩ :=
    ReplaceFirst_spec (googleAnalyticsScript ++ "</head>".toList) hhead
  have hc : injectContent content =
      pre ++ googleAnalyticsScript ++ "</head>".toList ++ post := by
    unfold injectContent
    rw [if_pos hhead, h3]
    simp only [List.append_assoc]
  have key := injectGoogleAnalytics_content hglob hdistinct hmem hread
  rw [hc] at key
  refine ⟨pre, post, h1, h2, key, ?_⟩
  intro hwf hreadable
  have hsucc := injectGoogleAnalytics_succeeds hglob hdistinct hwf hreadable
  refine ⟨hsucc, ?_⟩
  rcases key with h | ⟨hfail, _⟩
  · exact h
  · exact absurd hsucc hfail

/-- Instance of `injectGoogleAnalytics_before_closing_head`: `injectGoogleAnalytics` on the
report directory `/reports/run` of the sample file system, at the file `index.html`; the call
succeeds, so the file holds the content with the snippet. -/
theorem injectGoogleAnalytics_before_closing_head_witness :
    sampleDeps.filepathGlob sampleFS (Join ["/reports/run".toList, "*.html".toList]) =
      .ok ["/reports/run/index.html".toList, "/reports/run/part.html".toList] ∧
    ["/reports/run/index.html".toList, "/reports/run/part.html".toList].Pairwise
      (fun f g => sampleFS.resolve f ≠ sampleFS.resolve g) ∧
    "/reports/run/index.html".toList ∈
      ["/reports/run/index.html".toList, "/reports/run/part.html".toList] ∧
    ReadFile sampleFS "/reports/run/index.html".toList =
      .ok "<html><head></head></html>".toList ∧
    Contains "<html><head></head></html>".toList "</head>".toList = true ∧
    (injectGoogleAnalytics sampleDeps "/reports/run".toList sampleFS).1 = none ∧
    sampleFS.parentsAreDirs = true ∧
    ReadFile (injectGoogleAnalytics sampleDeps "/reports/run".toList sampleFS).2
      "/reports/run/index.html".toList = .ok ("<html><head>".toList ++ googleAnalyticsScript ++ "</head></html>".toList) ∧
    ∃ pre post, "<html><head></head></html>".toList = pre ++ "</head>".toList ++ post ∧
      (∀ pre2 post2, "<html><head></head></html>".toList = pre2 ++ "</head>".toList ++ post2 →
        pre.length ≤ pre2.length) ∧
      (ReadFile (injectGoogleAnalytics sampleDeps "/reports/run".toList sampleFS).2
          "/reports/run/index.html".toList =
          .ok (pre ++ googleAnalyticsScript ++ "</head>".toList ++ post) ∨
        ((injectGoogleAnalytics sampleDeps "/reports/run".toList sampleFS).1 ≠ none ∧
          ReadFile (injectGoogleAnalytics sampleDeps "/reports/run".toList sampleFS).2
            "/reports/run/index.html".toList = .ok "<html><head></head></html>".toList)) ∧
      (sampleFS.parentsAreDirs = true →
        (∀ f ∈ ["/reports/run/index.html".toList, "/reports/run/part.html".toList],
          ∃ c, ReadFile sampleFS f = .ok c) →
        (injectGoogleAnalytics sampleDeps "/reports/run".toList sampleFS).1 = none ∧
        ReadFile (injectGoogleAnalytics sampleDeps "/reports/run".toList sampleFS).2
          "/reports/run/index.html".toList =
          .ok (pre ++ googleAnalyticsScript ++ "</head>".toList ++ post)) :=
  ⟨by decide, by decide, by decide, by decide, by decide, by decide, by decide, by decide,
    injectGoogleAnalytics_before_closing_head sampleDeps sampleFS
      "/reports/run".toList
      ["/reports/run/index.html".toList, "/reports/run/part.html".toList]
      (by decide) (by decide)
      "/reports/run/index.html".toList "<html><head></head></html>".toList
      (by decide) (by decide) (by decide)⟩

/-- C5 (amended): for every HTML file that `injectGoogleAnalytics` finds in the report
directory (the glob returns no file twice) and whose content contains no `</head>` but
contains `<head>`, the content that `injectGoogleAnalytics` writes back is the original content
with one newline character and then the telemetry snippet inserted immediately after the
first `<head>`, and everything else unchanged. After the call the file holds exactly that
content; only when the call fails before reaching the file does the file still hold its
original content. -/
theorem injectGoogleAnalytics_after_opening_head (d : Deps) (fs : FS)
    (htmlReportDir : GoString) (htmlFiles : List GoString)
    (hglob : d.filepathGlob fs (Join [htmlReportDir, "*.html".toList]) = .ok htmlFiles)
    (hdistinct : htmlFiles.Pairwise (fun f g => fs.resolve f ≠ fs.resolve g))
    (htmlFile content : GoString) (hmem : htmlFile ∈ htmlFiles)
    (hread : ReadFile fs htmlFile = .ok content)
    (hclose : Contains content "</head>".toList = false)
    (hopen : Contains content "<head>".toList = true) :
    ∃ pre post, content = pre ++ "<head>".toList ++ post ∧
      (∀ pre2 post2, content = pre2 ++ "<head>".toList ++ post2 → pre.length ≤ pre2.length) ∧
      (ReadFile (injectGoogleAnalytics d htmlReportDir fs).2 htmlFile =
          .ok (pre ++ "<head>".toList ++ ['\n'] ++ googleAnalyticsScript ++ post) ∨
        ((injectGoogleAnalytics d htmlReportDir fs).1 ≠ none ∧
          ReadFile (injectGoogleAnalytics d htmlReportDir fs).2 htmlFile = .ok content)) ∧
      (fs.parentsAreDirs = true →
        (∀ f ∈ htmlFiles, ∃ c, ReadFile fs f = .ok c) →
        (injectGoogleAnalytics d htmlReportDir fs).1 = none ∧
        ReadFile (injectGoogleAnalytics d htmlReportDir fs).2 htmlFile =
          .ok (pre ++ "<head>".toList ++ ['\n'] ++ googleAnalyticsScript ++ post)) := by
  obtain ⟨pre, post, h1, h2, h3⟩ :=
    ReplaceFirst_spec ("<head>\n".toList ++ googleAnalyticsScript) hopen
  have hc : injectContent content =
      pre ++ "<head>".toList ++ ['\n'] ++ googleAnalyticsScript ++ post := by
    have e : "<head>\n".toList = "<head>".toList ++ ['\n'] := by decide
    unfold injectContent
    rw [if_neg (by rw [hclose]; decide), if_pos hopen, h3, e]
    simp only [List.append_assoc]
  have key := injectGoogleAnalytics_content hglob hdistinct hmem hread
  rw [hc] at key
  refine ⟨pre, post, h1, h2, key, ?_⟩
  intro hwf hreadable
  have hsucc := injectGoogleAnalytics_succeeds hglob hdistinct hwf hreadable
  refine ⟨hsucc, ?_⟩
  rcases key with h | ⟨hfail, _⟩
  · exact h
  · exact absurd hsucc hfail

/-- Instance of `injectGoogleAnalytics_after_opening_head`: `injectGoogleAnalytics` on the
report directory `/reports/run` of the sample file system, at the file `part.html`; the call
succeeds, so the file holds the content with the newline and the snippet. -/
theorem injectGoogleAnalytics_after_opening_head_witness :
    sampleDeps.filepathGlob sampleFS (Join ["/reports/run".toList, "*.html".toList]) =
      .ok ["/reports/run/index.html".toList, "/reports/run/part.html".toList] ∧
    ["/reports/run/index.html".toList, "/reports/run/part.html".toList].Pairwise
      (fun f g => sampleFS.resolve f ≠ sampleFS.resolve g) ∧
    "/reports/run/part.html".toList ∈
      ["/reports/run/index.html".toList, "/reports/run/part.html".toList] ∧
    ReadFile sampleFS "/reports/run/part.html".toList = .ok "<head><p>".toList ∧
    Contains "<head><p>".toList "</head>".toList = false ∧
    Contains "<head><p>".toList "<head>".toList = true ∧
    (injectGoogleAnalytics sampleDeps "/reports/run".toList sampleFS).1 = none ∧
    sampleFS.parentsAreDirs = true ∧
    ReadFile (injectGoogleAnalytics sampleDeps "/reports/run".toList sampleFS).2
      "/reports/run/part.html".toList = .ok ("<head>\n".toList ++ googleAnalyticsScript ++ "<p>".toList) ∧
    ∃ pre post, "<head><p>".toList = pre ++ "<head>".toList ++ post ∧
      (∀ pre2 post2, "<head><p>".toList = pre2 ++ "<head>".toList ++ post2 →
        pre.length ≤ pre2.length) ∧
      (ReadFile (injectGoogleAnalytics sampleDeps "/reports/run".toList sampleFS).2
          "/reports/run/part.html".toList =
          .ok (pre ++ "<head>".toList ++ ['\n'] ++ googleAnalyticsScript ++ post) ∨
        ((injectGoogleAnalytics sampleDeps "/reports/run".toList sampleFS).1 ≠ none ∧
          ReadFile (injectGoogleAnalytics sampleDeps "/reports/run".toList sampleFS).2
            "/reports/run/part.html".toList = .ok "<head><p>".toList)) ∧
      (sampleFS.parentsAreDirs = true →
        (∀ f ∈ ["/reports/run/index.html".toList, "/reports/run/part.html".toList],
          ∃ c, ReadFile sampleFS f = .ok c) →
        (injectGoogleAnalytics sampleDeps "/reports/run".toList sampleFS).1 = none ∧
        ReadFile (injectGoogleAnalytics sampleDeps "/reports/run".toList sampleFS).2
          "/reports/run/part.html".toList =
          .ok (pre ++ "<head>".toList ++ ['\n'] ++ googleAnalyticsScript ++ post)) :=
  ⟨by decide, by decide, by decide, by decide, by decide, by decide, by decide, by decide, by decide,
    injectGoogleAnalytics_after_opening_head sampleDeps sampleFS
      "/reports/run".toList
      ["/reports/run/index.html".toList, "/reports/run/part.html".toList]
      (by decide) (by decide)
      "/reports/run/part.html".toList "<head><p>".toList
      (by decide) (by decide) (by decide) (by decide)⟩

/-- C5 fails as stated: the file `/reports/run/part.html` of the sample file system holds
`<head><p>`, which has no `</head>` and contains `<head>`; after `injectGoogleAnalytics` it
holds `<head>`, a newline, the snippet and `<p>`, which is not the original content with only
the snippet inserted after `<head>`: one more character is added. -/
theorem injectGoogleAnalytics_after_opening_head_counterexample :
    ReadFile sampleFS "/reports/run/part.html".toList = .ok "<head><p>".toList ∧
    Contains "<head><p>".toList "</head>".toList = false ∧
    Contains "<head><p>".toList "<head>".toList = true ∧
    injectGoogleAnalytics sampleDeps "/reports/run".toList sampleFS = (none, sampleInjected) ∧
    ReadFile sampleInjected "/reports/run/part.html".toList =
      .ok ("<head>\n".toList ++ googleAnalyticsScript ++ "<p>".toList) ∧
    ReadFile sampleInjected "/reports/run/part.html".toList ≠
      .ok ("<head>".toList ++ googleAnalyticsScript ++ "<p>".toList) := by
  refine ⟨by decide, by decide, by decide, by decide, by decide, by decide⟩

theorem moveEntries_spec (x folder : GoString) (b a : Path) (hx : x ≠ [])
    (hfolder : folder ≠ []) (hab : a ≠ b) (es : List DirEntry) (fs fs2 : FS)
    (hb : fs.resolve x = .ok b) (ha : fs.resolve folder = .ok a)
    (hbd : fs.get b = some .dir) (had : fs.get a = some .dir)
    (hnames : ∀ e ∈ es, validName e.name = true)
    (hnodup : (es.map DirEntry.name).Nodup)
    (hfiles : ∀ e ∈ es, isAsset e = true → ∃ c, fs.get (b ++ [e.name]) = some (.file c))
    (r : Option Err) (hrun : moveEntries x folder es fs = (r, fs2)) :
    fs2.cwd = fs.cwd ∧
    (∀ q, fs.get q = some .dir → fs2.get q = some .dir) ∧
    (∀ q, (∀ e ∈ es, isAsset e = true → q ≠ b ++ [e.name] ∧ q ≠ a ++ [e.name]) →
      fs2.get q = fs.get q) ∧
    (∀ e ∈ es, isAsset e = true →
      (fs2.get (a ++ [e.name]) = fs.get (b ++ [e.name]) ∧ fs2.get (b ++ [e.name]) = none) ∨
      (r ≠ none ∧ fs2.get (b ++ [e.name]) = fs.get (b ++ [e.name]))) := by
  induction es generalizing fs with
  | nil =>
    simp only [moveEntries, Prod.mk.injEq] at hrun
    obtain ⟨_, rfl⟩ := hrun
    exact ⟨rfl, fun _ h => h, fun _ _ => rfl, fun e he => by simp at he⟩
  | cons e rest ih =>
    rw [List.map_cons, List.nodup_cons] at hnodup
    have hnames2 : ∀ e2 ∈ rest, validName e2.name = true :=
      fun e2 h2 => hnames e2 (List.mem_cons_of_mem _ h2)
    by_cases hasset : isAsset e = true
    · have hdir : e.isDir = false := by
        unfold isAsset at hasset
        simp only [Bool.and_eq_true, Bool.not_eq_true'] at hasset
        exact hasset.1
      have hext : ¬ (Ext e.name = ".plist".toList ∨ Ext e.name = ".log".toList) := by
        unfold isAsset at hasset
        simp only [Bool.and_eq_true, Bool.not_eq_true', decide_eq_false_iff_not] at hasset
        exact hasset.2
      obtain ⟨c, hc⟩ := hfiles e (List.mem_cons_self _ _) hasset
      have hvn := hnames e (List.mem_cons_self _ _)
      have ho : fs.resolve (Join [x, e.name]) = .ok (b ++ [e.name]) :=
        resolve_Join hx hvn hb hbd
      have hn : fs.resolve (Join [folder, Base e.name]) = .ok (a ++ [e.name]) := by
        rw [Base_validName hvn]
        exact resolve_Join hfolder hvn ha had
      simp only [moveEntries, hdir, Bool.false_eq_true, if_false, if_neg hext] at hrun
      cases hren : Rename fs (Join [x, e.name]) (Join [folder, Base e.name]) with
      | error err =>
        rw [hren] at hrun
        simp only [Prod.mk.injEq] at hrun
        obtain ⟨hr, rfl⟩ := hrun
        exact ⟨rfl, fun _ h => h, fun _ _ => rfl,
          fun e2 _ _ => Or.inr ⟨by rw [← hr]; simp, rfl⟩⟩
      | ok fs1 =>
        rw [hren] at hrun
        simp only at hrun
        obtain ⟨hfs1, hndir⟩ := Rename_file hren ho hn hc
          (fun h => hab (snoc_inj h).1.symm)
        have hcwd : fs1.cwd = fs.cwd := by rw [hfs1]; rfl
        have hget : ∀ q, fs1.get q = if q = [] then some .dir
            else if q = a ++ [e.name] then some (.file c)
            else if q = b ++ [e.name] then none else fs.get q := by
          intro q
          rw [hfs1, get_rename_file]
        have hdir1 : ∀ q, fs.get q = some .dir → fs1.get q = some .dir := by
          intro q hq
          rw [hget]
          by_cases hq0 : q = []
          · rw [if_pos hq0]
          · have h1 : q ≠ a ++ [e.name] := by
              intro h
              rw [h] at hq
              exact hndir hq
            have h2 : q ≠ b ++ [e.name] := by
              intro h
              rw [h, hc] at hq
              cases hq
            rw [if_neg hq0, if_neg h1, if_neg h2, hq]
        have hnofile : ∀ q, fs1.get q = some .dir → ∀ c2, fs1.get q ≠ some (.file c2) := by
          intro q hq c2 h
          rw [hq] at h
          cases h
        have hother : ∀ e2 ∈ rest, fs1.get (b ++ [e2.name]) = fs.get (b ++ [e2.name]) := by
          intro e2 h2
          rw [hget]
          have h3 : e2.name ≠ e.name := by
            intro heq
            exact hnodup.1 (heq ▸ List.mem_map_of_mem _ h2)
          rw [if_neg (by simp), if_neg (fun h => hab (snoc_inj h).1.symm),
            if_neg (fun h => h3 (snoc_inj h).2)]
        obtain ⟨i1, i0, i2, i3⟩ := ih fs1
          (resolve_preserved hcwd hdir1 hb (hnofile b (hdir1 b hbd)))
          (resolve_preserved hcwd hdir1 ha (hnofile a (hdir1 a had)))
          (hdir1 b hbd) (hdir1 a had) hnames2 hnodup.2
          (fun e2 h2 hasset2 => by
            rw [hother e2 h2]
            exact hfiles e2 (List.mem_cons_of_mem _ h2) hasset2) hrun
        refine ⟨i1.trans hcwd, fun q hq => i0 q (hdir1 q hq), ?_, ?_⟩
        · intro q hq
          rw [i2 q (fun e2 h2 => hq e2 (List.mem_cons_of_mem _ h2)), hget]
          obtain ⟨q1, q2⟩ := hq e (List.mem_cons_self _ _) hasset
          by_cases hq0 : q = []
          · rw [if_pos hq0, hq0, get_nil]
          · rw [if_neg hq0, if_neg q2, if_neg q1]
        · intro e2 h2 hasset2
          rcases List.mem_cons.1 h2 with rfl | h2
          · have hfr : ∀ q, (q = a ++ [e2.name] ∨ q = b ++ [e2.name]) →
                ∀ e3 ∈ rest, isAsset e3 = true → q ≠ b ++ [e3.name] ∧ q ≠ a ++ [e3.name] := by
              intro q hq e3 h3 _
              have hne3 : e2.name ≠ e3.name := by
                intro heq
                exact hnodup.1 (heq ▸ List.mem_map_of_mem _ h3)
              rcases hq with rfl | rfl
              · exact ⟨fun h => hab (snoc_inj h).1, fun h => hne3 (snoc_inj h).2⟩
              · exact ⟨fun h => hne3 (snoc_inj h).2, fun h => hab (snoc_inj h).1.symm⟩
            left
            rw [i2 _ (hfr _ (Or.inl rfl)), i2 _ (hfr _ (Or.inr rfl)), hget, hget]
            rw [if_neg (by simp), if_pos rfl, if_neg (by simp),
              if_neg (fun h => hab (snoc_inj h).1.symm), if_pos rfl]
            exact ⟨hc.symm, rfl⟩
          · rcases i3 e2 h2 hasset2 with ⟨m1, m2⟩ | ⟨m1, m2⟩
            · exact Or.inl ⟨m1.trans (hother e2 h2), m2⟩
            · exact Or.inr ⟨m1, m2.trans (hother e2 h2)⟩
    · have hstep : moveEntries x folder (e :: rest) fs = moveEntries x folder rest fs := by
        unfold isAsset at hasset
        simp only [moveEntries]
        by_cases hdir : e.isDir = true
        · rw [if_pos hdir]
        · rw [if_neg hdir]
          by_cases hext : Ext e.name = ".plist".toList ∨ Ext e.name = ".log".toList
          · rw [if_pos hext]
          · exfalso
            apply hasset
            simp only [Bool.not_eq_true] at hdir
            rw [hdir, decide_eq_false hext]
            rfl
      rw [hstep] at hrun
      obtain ⟨i1, i0, i2, i3⟩ := ih fs hb ha hbd had hnames2 hnodup.2
        (fun e2 h2 hasset2 => hfiles e2 (List.mem_cons_of_mem _ h2) hasset2) hrun
      refine ⟨i1, i0, ?_, ?_⟩
      · intro q hq
        exact i2 q (fun e2 h2 => hq e2 (List.mem_cons_of_mem _ h2))
      · intro e2 h2 hasset2
        rcases List.mem_cons.1 h2 with rfl | h2
        · exact absurd hasset2 hasset
        · exact i3 e2 h2 hasset2

theorem moveAssets_spec {fs fs2 : FS} {xcresultPath htmlReportDir : GoString}
    {r : Option Err} (hvalid : fs.validNames = true)
    (hrun : moveAssets xcresultPath htmlReportDir fs = (r, fs2)) :
    (r ≠ none ∧ fs2 = fs) ∨
    ∃ b a, fs.resolve xcresultPath = .ok b ∧
      fs.resolve (assetFolder xcresultPath htmlReportDir) = .ok a ∧
      fs.get a = none ∧ fs2.get a = some .dir ∧
      fs2.resolve xcresultPath = .ok b ∧
      fs2.resolve (assetFolder xcresultPath htmlReportDir) = .ok a ∧
      ∀ name node, fs.get (b ++ [name]) = some node →
        (node.isDir = false ∧ Ext name ≠ ".plist".toList ∧ Ext name ≠ ".log".toList →
          (fs2.get (a ++ [name]) = some node ∧ fs2.get (b ++ [name]) = none) ∨
          (r ≠ none ∧ fs2.get (b ++ [name]) = some node)) ∧
        (node.isDir = true ∨ Ext name = ".plist".toList ∨ Ext name = ".log".toList →
          fs2.get (b ++ [name]) = some node) := by
  unfold moveAssets at hrun
  cases hrd : ReadDir fs xcresultPath with
  | error err =>
    rw [hrd] at hrun
    simp only [Prod.mk.injEq] at hrun
    exact Or.inl ⟨by rw [← hrun.1]; simp, hrun.2.symm⟩
  | ok entries =>
    rw [hrd] at hrun
    simp only at hrun
    cases hmk : Mkdir fs (assetFolder xcresultPath htmlReportDir) with
    | error err =>
      rw [hmk] at hrun
      simp only [Prod.mk.injEq] at hrun
      exact Or.inl ⟨by rw [← hrun.1]; simp, hrun.2.symm⟩
    | ok fs1 =>
      rw [hmk] at hrun
      simp only at hrun
      right
      obtain ⟨b, hx, hb, hbdir, hentries⟩ := ReadDir_ok hrd
      obtain ⟨a, hfolder, ha, hanone, hfs1⟩ := Mkdir_ok hmk
      have ha0 : a ≠ [] := by
        intro h
        rw [h, get_nil] at hanone
        cases hanone
      have hab : a ≠ b := by
        intro h
        rw [h, hbdir] at hanone
        cases hanone
      have hcwd1 : fs1.cwd = fs.cwd := by rw [hfs1]
      have hget1 : ∀ q, fs1.get q = if q = a then some .dir else fs.get q := by
        intro q
        rw [hfs1, get_mkdir fs a q ha0]
      have hdir1 : ∀ q, fs.get q = some .dir → fs1.get q = some .dir := by
        intro q hq
        rw [hget1]
        split
        · rfl
        · exact hq
      have had1 : fs1.get a = some .dir := by rw [hget1, if_pos rfl]
      have hnofile : ∀ (g : FS) q, g.get q = some .dir → ∀ c2, g.get q ≠ some (.file c2) := by
        intro g q hq c2 h
        rw [hq] at h
        cases h
      have hb1 : fs1.resolve xcresultPath = .ok b :=
        resolve_preserved hcwd1 hdir1 hb (hnofile fs1 b (hdir1 b hbdir))
      have ha1 : fs1.resolve (assetFolder xcresultPath htmlReportDir) = .ok a :=
        resolve_preserved hcwd1 hdir1 ha (hnofile fs1 a had1)
      have hchild : ∀ n nd, fs.get (b ++ [n]) = some nd → fs1.get (b ++ [n]) = some nd := by
        intro n nd h
        rw [hget1, if_neg, h]
        intro heq
        rw [heq, hanone] at h
        cases h
      have hmem : ∀ e ∈ entries, ∃ nd, fs.get (b ++ [e.name]) = some nd ∧ e.isDir = nd.isDir := by
        intro e he
        rw [hentries] at he
        exact mem_children.1 he
      obtain ⟨i1, i0, i2, i3⟩ := moveEntries_spec xcresultPath
        (assetFolder xcresultPath htmlReportDir) b a hx hfolder hab entries fs1 fs2
        hb1 ha1 (hdir1 b hbdir) had1
        (fun e he => children_validName hvalid (hentries ▸ he))
        (hentries ▸ children_names_nodup fs b)
        (fun e he hasset => by
          obtain ⟨nd, hnd, hd⟩ := hmem e he
          have hdir : e.isDir = false := by
            unfold isAsset at hasset
            simp only [Bool.and_eq_true, Bool.not_eq_true'] at hasset
            exact hasset.1
          cases nd with
          | dir => rw [hdir] at hd; cases hd
          | file c => exact ⟨c, hchild _ _ hnd⟩) r hrun
      have had2 : fs2.get a = some .dir := i0 a had1
      have hbd2 : fs2.get b = some .dir := i0 b (hdir1 b hbdir)
      refine ⟨b, a, hb, ha, hanone, had2,
        resolve_preserved i1 i0 hb1 (hnofile fs2 b hbd2),
        resolve_preserved i1 i0 ha1 (hnofile fs2 a had2), ?_⟩
      intro name node hentry
      have hin : (⟨name, node.isDir⟩ : DirEntry) ∈ entries := by
        rw [hentries]
        exact mem_children.2 ⟨node, hentry, rfl⟩
      constructor
      · rintro ⟨hd, hp, hl⟩
        have hasset : isAsset ⟨name, node.isDir⟩ = true := by
          unfold isAsset
          simp only [hd, Bool.not_false, Bool.true_and, Bool.not_eq_true',
            decide_eq_false_iff_not]
          exact fun h => h.elim hp hl
        rcases i3 _ hin hasset with ⟨m1, m2⟩ | ⟨m1, m2⟩
        · exact Or.inl ⟨m1.trans (hchild _ _ hentry), m2⟩
        · exact Or.inr ⟨m1, m2.trans (hchild _ _ hentry)⟩
      · intro hskip
        have hnot : isAsset ⟨name, node.isDir⟩ = false := by
          unfold isAsset
          rcases hskip with hd | hp | hl
          · simp [hd]
          · simp only [hp, true_or, decide_True, Bool.not_true, Bool.and_false]
          · simp only [hl, or_true, decide_True, Bool.not_true, Bool.and_false]
        rw [i2 _ ?_, hchild _ _ hentry]
        intro e he hasset
        refine ⟨?_, fun h => hab (snoc_inj h).1.symm⟩
        intro h
        have hn := (snoc_inj h).2
        obtain ⟨nd, hnd, hd⟩ := hmem e he
        rw [← hn, hentry] at hnd
        cases hnd
        have : e = ⟨name, node.isDir⟩ := by
          cases e
          simp_all
        rw [this, hnot] at hasset
        cases hasset

theorem Rename_file_ok {fs : FS} {oldpath newpath c : GoString} {o n : Path}
    (hold : oldpath ≠ []) (hnew : newpath ≠ [])
    (ho : fs.resolve oldpath = .ok o) (hn : fs.resolve newpath = .ok n)
    (hsrc : fs.get o = some (.file c)) (hne : o ≠ n) (hdst : fs.get n = none)
    (hpar : fs.get n.dropLast = some .dir) :
    Rename fs oldpath newpath = .ok ((fs.remove o).set n (.file c)) := by
  unfold Rename
  rw [if_neg (by simp [hold, hnew])]
  simp only [ho, hn, hsrc, if_neg hne, hdst, hpar, ne_eq, not_true_eq_false, if_false]

theorem moveEntries_succeeds (x folder : GoString) (b a : Path) (hx : x ≠ [])
    (hfolder : folder ≠ []) (hab : a ≠ b) (es : List DirEntry) (fs : FS)
    (hb : fs.resolve x = .ok b) (ha : fs.resolve folder = .ok a)
    (hbd : fs.get b = some .dir) (had : fs.get a = some .dir)
    (hnames : ∀ e ∈ es, validName e.name = true)
    (hnodup : (es.map DirEntry.name).Nodup)
    (hfiles : ∀ e ∈ es, isAsset e = true → ∃ c, fs.get (b ++ [e.name]) = some (.file c))
    (hfree : ∀ e ∈ es, isAsset e = true → fs.get (a ++ [e.name]) = none) :
    (moveEntries x folder es fs).1 = none := by
  induction es generalizing fs with
  | nil => rfl
  | cons e rest ih =>
    rw [List.map_cons, List.nodup_cons] at hnodup
    have hnames2 : ∀ e2 ∈ rest, validName e2.name = true :=
      fun e2 h2 => hnames e2 (List.mem_cons_of_mem _ h2)
    by_cases hasset : isAsset e = true
    · have hdir : e.isDir = false := by
        unfold isAsset at hasset
        simp only [Bool.and_eq_true, Bool.not_eq_true'] at hasset
        exact hasset.1
      have hext : ¬ (Ext e.name = ".plist".toList ∨ Ext e.name = ".log".toList) := by
        unfold isAsset at hasset
        simp only [Bool.and_eq_true, Bool.not_eq_true', decide_eq_false_iff_not] at hasset
        exact hasset.2
      obtain ⟨c, hc⟩ := hfiles e (List.mem_cons_self _ _) hasset
      have hfr := hfree e (List.mem_cons_self _ _) hasset
      have hvn := hnames e (List.mem_cons_self _ _)
      have hvn2 := (validName_iff e.name).1 hvn
      have ho : fs.resolve (Join [x, e.name]) = .ok (b ++ [e.name]) :=
        resolve_Join hx hvn hb hbd
      have hn : fs.resolve (Join [folder, Base e.name]) = .ok (a ++ [e.name]) := by
        rw [Base_validName hvn]
        exact resolve_Join hfolder hvn ha had
      have hj1 : Join [x, e.name] ≠ [] := Join_ne_nil hx
      have hj2 : Join [folder, Base e.name] ≠ [] := Join_ne_nil hfolder
      have hren := Rename_file_ok hj1 hj2 ho hn hc (fun h => hab (snoc_inj h).1.symm) hfr
        (by rw [List.dropLast_concat]; exact had)
      obtain ⟨fs1, hfs1⟩ : ∃ fs1, fs1 =
          (fs.remove (b ++ [e.name])).set (a ++ [e.name]) (.file c) := ⟨_, rfl⟩
      rw [← hfs1] at hren
      simp only [moveEntries, hdir, Bool.false_eq_true, if_false, if_neg hext, hren]
      have hcwd : fs1.cwd = fs.cwd := by rw [hfs1]; rfl
      have hget : ∀ q, fs1.get q = if q = [] then some .dir
          else if q = a ++ [e.name] then some (.file c)
          else if q = b ++ [e.name] then none else fs.get q := by
        intro q
        rw [hfs1, get_rename_file]
      have hdir1 : ∀ q, fs.get q = some .dir → fs1.get q = some .dir := by
        intro q hq
        rw [hget]
        by_cases hq0 : q = []
        · rw [if_pos hq0]
        · have h1 : q ≠ a ++ [e.name] := by
            intro h
            rw [h, hfr] at hq
            cases hq
          have h2 : q ≠ b ++ [e.name] := by
            intro h
            rw [h, hc] at hq
            cases hq
          rw [if_neg hq0, if_neg h1, if_neg h2, hq]
      have hnofile : ∀ q, fs1.get q = some .dir → ∀ c2, fs1.get q ≠ some (.file c2) := by
        intro q hq c2 h
        rw [hq] at h
        cases h
      have hne2 : ∀ e2 ∈ rest, e2.name ≠ e.name := by
        intro e2 h2 heq
        exact hnodup.1 (heq ▸ List.mem_map_of_mem _ h2)
      refine ih fs1
        (resolve_preserved hcwd hdir1 hb (hnofile b (hdir1 b hbd)))
        (resolve_preserved hcwd hdir1 ha (hnofile a (hdir1 a had)))
        (hdir1 b hbd) (hdir1 a had) hnames2 hnodup.2 ?_ ?_
      · intro e2 h2 hasset2
        rw [hget, if_neg (by simp), if_neg (fun h => hab (snoc_inj h).1.symm),
          if_neg (fun h => hne2 e2 h2 (snoc_inj h).2)]
        exact hfiles e2 (List.mem_cons_of_mem _ h2) hasset2
      · intro e2 h2 hasset2
        rw [hget, if_neg (by simp), if_neg (fun h => hne2 e2 h2 (snoc_inj h).2),
          if_neg (fun h => hab (snoc_inj h).1)]
        exact hfree e2 (List.mem_cons_of_mem _ h2) hasset2
    · have hstep : moveEntries x folder (e :: rest) fs = moveEntries x folder rest fs := by
        unfold isAsset at hasset
        simp only [moveEntries]
        by_cases hdir : e.isDir = true
        · rw [if_pos hdir]
        · rw [if_neg hdir]
          by_cases hext : Ext e.name = ".plist".toList ∨ Ext e.name = ".log".toList
          · rw [if_pos hext]
          · exfalso
            apply hasset
            simp only [Bool.not_eq_true] at hdir
            rw [hdir, decide_eq_false hext]
            rfl
      rw [hstep]
      exact ih fs hb ha hbd had hnames2 hnodup.2
        (fun e2 h2 hasset2 => hfiles e2 (List.mem_cons_of_mem _ h2) hasset2)
        (fun e2 h2 hasset2 => hfree e2 (List.mem_cons_of_mem _ h2) hasset2)

theorem moveAssets_succeeds {fs fs1 : FS} {xcresultPath htmlReportDir : GoString}
    {entries : List DirEntry}
    (hvalid : fs.validNames = true) (hwf : fs.parentsAreDirs = true)
    (hrd : ReadDir fs xcresultPath = .ok entries)
    (hmk : Mkdir fs (assetFolder xcresultPath htmlReportDir) = .ok fs1) :
    (moveAssets xcresultPath htmlReportDir fs).1 = none := by
  unfold moveAssets
  rw [hrd]
  simp only [hmk]
  obtain ⟨b, hx, hb, hbdir, hentries⟩ := ReadDir_ok hrd
  obtain ⟨a, hfolder, ha, hanone, hfs1⟩ := Mkdir_ok hmk
  have ha0 : a ≠ [] := by
    intro h
    rw [h, get_nil] at hanone
    cases hanone
  have hab : a ≠ b := by
    intro h
    rw [h, hbdir] at hanone
    cases hanone
  have hcwd1 : fs1.cwd = fs.cwd := by rw [hfs1]
  have hget1 : ∀ q, fs1.get q = if q = a then some .dir else fs.get q := by
    intro q
    rw [hfs1, get_mkdir fs a q ha0]
  have hdir1 : ∀ q, fs.get q = some .dir → fs1.get q = some .dir := by
    intro q hq
    rw [hget1]
    split
    · rfl
    · exact hq
  have had1 : fs1.get a = some .dir := by rw [hget1, if_pos rfl]
  have hnofile : ∀ q, fs1.get q = some .dir → ∀ c2, fs1.get q ≠ some (.file c2) := by
    intro q hq c2 h
    rw [hq] at h
    cases h
  have hchild : ∀ n nd, fs.get (b ++ [n]) = some nd → fs1.get (b ++ [n]) = some nd := by
    intro n nd h
    rw [hget1, if_neg, h]
    intro heq
    rw [heq, hanone] at h
    cases h
  have hmem : ∀ e ∈ entries, ∃ nd, fs.get (b ++ [e.name]) = some nd ∧ e.isDir = nd.isDir := by
    intro e he
    rw [hentries] at he
    exact mem_children.1 he
  apply moveEntries_succeeds xcresultPath (assetFolder xcresultPath htmlReportDir) b a hx hfolder
    hab entries fs1
    (resolve_preserved hcwd1 hdir1 hb (hnofile b (hdir1 b hbdir)))
    (resolve_preserved hcwd1 hdir1 ha (hnofile a had1))
    (hdir1 b hbdir) had1
    (fun e he => children_validName hvalid (hentries ▸ he))
    (hentries ▸ children_names_nodup fs b)
  · intro e he hasset
    obtain ⟨nd, hnd, hd⟩ := hmem e he
    have hdir : e.isDir = false := by
      unfold isAsset at hasset
      simp only [Bool.and_eq_true, Bool.not_eq_true'] at hasset
      exact hasset.1
    cases nd with
    | dir => rw [hdir] at hd; cases hd
    | file c => exact ⟨c, hchild _ _ hnd⟩
  · intro e he _
    rw [hget1, if_neg (by
      intro h
      have := congrArg List.length h
      simp at this)]
    cases hg : fs.get (a ++ [e.name]) with
    | none => rfl
    | some nd =>
      have := get_parent hwf hg
      rw [List.dropLast_concat, hanone] at this
      cases this

/-- C7: when `moveAssets` succeeds on a bundle directory and a report directory, every
immediate non-directory entry of the bundle whose extension is neither `.plist` nor `.log` is
afterwards located in the asset folder under its own file name, unchanged, and is no longer in
the bundle, while every `.plist` file, every `.log` file and every subdirectory of the bundle
stays at its original location. Here `b` is the directory the bundle path resolves to (before
and after) and `a` the directory the asset folder path resolves to afterwards. -/
theorem moveAssets_relocates (fs fs2 : FS) (xcresultPath htmlReportDir : GoString)
    (hvalid : fs.validNames = true)
    (hok : moveAssets xcresultPath htmlReportDir fs = (none, fs2)) :
    ∃ b a, fs.resolve xcresultPath = .ok b ∧ fs2.resolve xcresultPath = .ok b ∧
      fs2.resolve (assetFolder xcresultPath htmlReportDir) = .ok a ∧
      ∀ name node, fs.get (b ++ [name]) = some node →
        (node.isDir = false ∧ Ext name ≠ ".plist".toList ∧ Ext name ≠ ".log".toList →
          fs2.get (a ++ [name]) = some node ∧ fs2.get (b ++ [name]) = none) ∧
        (node.isDir = true ∨ Ext name = ".plist".toList ∨ Ext name = ".log".toList →
          fs2.get (b ++ [name]) = some node) := by
  rcases moveAssets_spec hvalid hok with ⟨hr, _⟩ | ⟨b, a, h1, _, _, _, h5, h6, h7⟩
  · exact absurd rfl hr
  · refine ⟨b, a, h1, h5, h6, ?_⟩
    intro name node hentry
    refine ⟨fun hasset => ?_, (h7 name node hentry).2⟩
    rcases (h7 name node hentry).1 hasset with h | ⟨hr, _⟩
    · exact h
    · exact absurd rfl hr

/-- Instance of `moveAssets_relocates`: `moveAssets` on the sample bundle and the report
directory `/reports/run`; the screenshot is moved, the property list, the log and the
subdirectory stay. -/
theorem moveAssets_relocates_witness :
    sampleFS.validNames = true ∧
    moveAssets "/x/run.xcresult".toList "/reports/run".toList sampleFS = (none, sampleMoved) ∧
    ∃ b a, sampleFS.resolve "/x/run.xcresult".toList = .ok b ∧
      sampleMoved.resolve "/x/run.xcresult".toList = .ok b ∧
      sampleMoved.resolve (assetFolder "/x/run.xcresult".toList "/reports/run".toList) =
        .ok a ∧
      ∀ name node, sampleFS.get (b ++ [name]) = some node →
        (node.isDir = false ∧ Ext name ≠ ".plist".toList ∧ Ext name ≠ ".log".toList →
          sampleMoved.get (a ++ [name]) = some node ∧ sampleMoved.get (b ++ [name]) = none) ∧
        (node.isDir = true ∨ Ext name = ".plist".toList ∨ Ext name = ".log".toList →
          sampleMoved.get (b ++ [name]) = some node) :=
  ⟨by decide, by decide,
    moveAssets_relocates sampleFS sampleMoved "/x/run.xcresult".toList "/reports/run".toList
      (by decide) (by decide)⟩

/-- C6 fails as stated: for the bundle `/x/run.xcresult` and the report root `/reports` the
report directory is `/reports/run`, but the asset folder is `/reports/run/run.xcresult`, not
`/reports/run/run`: its name keeps the extension. On the sample file system `moveAssets`
creates the directory `/reports/run/run.xcresult`, the screenshot ends up at
`/reports/run/run.xcresult/shot.png`, and nothing is at `/reports/run/run`. -/
theorem assetFolder_name_counterexample :
    reportDirPath "/reports".toList "/x/run.xcresult".toList = "/reports/run".toList ∧
    assetFolder "/x/run.xcresult".toList
        (reportDirPath "/reports".toList "/x/run.xcresult".toList) =
      "/reports/run/run.xcresult".toList ∧
    Base (assetFolder "/x/run.xcresult".toList
        (reportDirPath "/reports".toList "/x/run.xcresult".toList)) ≠
      Base (reportDirPath "/reports".toList "/x/run.xcresult".toList) ∧
    moveAssets "/x/run.xcresult".toList
        (reportDirPath "/reports".toList "/x/run.xcresult".toList) sampleFS =
      (none, sampleMoved) ∧
    Stat sampleMoved "/reports/run/run.xcresult".toList = .ok .dir ∧
    Stat sampleMoved "/reports/run/run.xcresult/shot.png".toList = .ok (.file "PNG".toList) ∧
    Stat sampleMoved "/reports/run/run".toList = .error .enoent ∧
    Stat sampleMoved "/reports/run/run/shot.png".toList = .error .enoent := by
  refine ⟨by decide, by decide, by decide, by decide, by decide, by decide, by decide,
    by decide⟩

/-- C6 (amended): for every bundle path, the asset folder that `moveAssets` creates for the
report directory made by `generateTestReport` is the report directory joined with the
bundle's base name with its extension kept, that is the name of the report directory
followed by the bundle's extension. Either `moveAssets` fails before creating anything and
leaves the file system unchanged, or that directory did not exist before and exists
afterwards, and every asset of the bundle is in it under its own name (or, only when
`moveAssets` failed on the way, still in the bundle). `moveAssets` succeeds whenever the
bundle can be listed and the folder can be created. For a bundle `/x/run.xcresult` the report
directory is `<reportRoot>/run` and the folder name is `run.xcresult`, so the assets end up
under `<reportRoot>/run/run.xcresult/`. -/
theorem assetFolder_keeps_extension (fs : FS) (rootDir xcresultPath : GoString)
    (hvalid : fs.validNames = true) :
    (((moveAssets xcresultPath (reportDirPath rootDir xcresultPath) fs).1 ≠ none ∧
        (moveAssets xcresultPath (reportDirPath rootDir xcresultPath) fs).2 = fs) ∨
      ∃ b a, fs.resolve xcresultPath = .ok b ∧
        fs.resolve (Join [Join [rootDir, reportBaseName xcresultPath],
          reportBaseName xcresultPath ++ Ext xcresultPath]) = .ok a ∧
        fs.get a = none ∧
        (moveAssets xcresultPath (reportDirPath rootDir xcresultPath) fs).2.get a =
          some .dir ∧
        ∀ name node, fs.get (b ++ [name]) = some node → node.isDir = false →
          Ext name ≠ ".plist".toList → Ext name ≠ ".log".toList →
          (moveAssets xcresultPath (reportDirPath rootDir xcresultPath) fs).2.get
              (a ++ [name]) = some node ∨
          ((moveAssets xcresultPath (reportDirPath rootDir xcresultPath) fs).1 ≠ none ∧
            (moveAssets xcresultPath (reportDirPath rootDir xcresultPath) fs).2.get
              (b ++ [name]) = some node)) ∧
    (fs.parentsAreDirs = true →
      (∃ entries, ReadDir fs xcresultPath = .ok entries) →
      (∃ fs1, Mkdir fs (Join [Join [rootDir, reportBaseName xcresultPath],
        reportBaseName xcresultPath ++ Ext xcresultPath]) = .ok fs1) →
      (moveAssets xcresultPath (reportDirPath rootDir xcresultPath) fs).1 = none) ∧
    reportDirPath rootDir "/x/run.xcresult".toList = Join [rootDir, "run".toList] ∧
    reportBaseName "/x/run.xcresult".toList ++ Ext "/x/run.xcresult".toList =
      "run.xcresult".toList := by
  have hfolder : assetFolder xcresultPath (reportDirPath rootDir xcresultPath) =
      Join [Join [rootDir, reportBaseName xcresultPath],
        reportBaseName xcresultPath ++ Ext xcresultPath] := by
    unfold assetFolder reportDirPath
    rw [← Base_eq_reportBaseName_append_Ext]
  refine ⟨?_, ?_, ?_, by decide⟩
  · rcases moveAssets_spec hvalid (Prod.mk.eta).symm with h | ⟨b, a, h1, h2, h3, h4, _, _, h7⟩
    · exact Or.inl h
    · right
      rw [hfolder] at h2
      refine ⟨b, a, h1, h2, h3, h4, ?_⟩
      intro name node hn hd hp hl
      rcases (h7 name node hn).1 ⟨hd, hp, hl⟩ with h | h
      · exact Or.inl h.1
      · exact Or.inr h
  · rintro hwf ⟨entries, hrd⟩ ⟨fs1, hmk⟩
    rw [← hfolder] at hmk
    exact moveAssets_succeeds hvalid hwf hrd hmk
  · unfold reportDirPath
    have h1 : reportBaseName "/x/run.xcresult".toList = "run".toList := by decide
    rw [h1]

/-- Instance of `assetFolder_keeps_extension`: `moveAssets` on the sample bundle
`/x/run.xcresult` and its report directory under the report root `/reports`; the call
succeeds, the folder `/reports/run/run.xcresult` is created and holds the screenshot. -/
theorem assetFolder_keeps_extension_witness :
    sampleFS.validNames = true ∧
    sampleFS.parentsAreDirs = true ∧
    (moveAssets "/x/run.xcresult".toList
        (reportDirPath "/reports".toList "/x/run.xcresult".toList) sampleFS).1 = none ∧
    Stat (moveAssets "/x/run.xcresult".toList
        (reportDirPath "/reports".toList "/x/run.xcresult".toList) sampleFS).2
      "/reports/run/run.xcresult/shot.png".toList = .ok (.file "PNG".toList) ∧
    ((((moveAssets "/x/run.xcresult".toList
          (reportDirPath "/reports".toList "/x/run.xcresult".toList) sampleFS).1 ≠ none ∧
        (moveAssets "/x/run.xcresult".toList
          (reportDirPath "/reports".toList "/x/run.xcresult".toList) sampleFS).2 = sampleFS) ∨
      ∃ b a, sampleFS.resolve "/x/run.xcresult".toList = .ok b ∧
        sampleFS.resolve (Join [Join ["/reports".toList,
            reportBaseName "/x/run.xcresult".toList],
          reportBaseName "/x/run.xcresult".toList ++ Ext "/x/run.xcresult".toList]) = .ok a ∧
        sampleFS.get a = none ∧
        (moveAssets "/x/run.xcresult".toList
          (reportDirPath "/reports".toList "/x/run.xcresult".toList) sampleFS).2.get a =
          some .dir ∧
        ∀ name node, sampleFS.get (b ++ [name]) = some node → node.isDir = false →
          Ext name ≠ ".plist".toList → Ext name ≠ ".log".toList →
          (moveAssets "/x/run.xcresult".toList
            (reportDirPath "/reports".toList "/x/run.xcresult".toList) sampleFS).2.get
              (a ++ [name]) = some node ∨
          ((moveAssets "/x/run.xcresult".toList
              (reportDirPath "/reports".toList "/x/run.xcresult".toList) sampleFS).1 ≠ none ∧
            (moveAssets "/x/run.xcresult".toList
              (reportDirPath "/reports".toList "/x/run.xcresult".toList) sampleFS).2.get
              (b ++ [name]) = some node)) ∧
    (sampleFS.parentsAreDirs = true →
      (∃ entries, ReadDir sampleFS "/x/run.xcresult".toList = .ok entries) →
      (∃ fs1, Mkdir sampleFS (Join [Join ["/reports".toList,
          reportBaseName "/x/run.xcresult".toList],
        reportBaseName "/x/run.xcresult".toList ++ Ext "/x/run.xcresult".toList]) =
          .ok fs1) →
      (moveAssets "/x/run.xcresult".toList
        (reportDirPath "/reports".toList "/x/run.xcresult".toList) sampleFS).1 = none) ∧
    reportDirPath "/reports".toList "/x/run.xcresult".toList =
      Join ["/reports".toList, "run".toList] ∧
    reportBaseName "/x/run.xcresult".toList ++ Ext "/x/run.xcresult".toList =
      "run.xcresult".toList) :=
  ⟨by decide, by decide, by decide, by decide,
    assetFolder_keeps_extension sampleFS "/reports".toList "/x/run.xcresult".toList
      (by decide)⟩

theorem foldl_insertKey_nodup (found m : List GoString) (h : m.Nodup) :
    (found.foldl insertKey m).Nodup := by
  induction found generalizing m with
  | nil => exact h
  | cons k rest ih =>
    apply ih
    unfold insertKey
    split
    · exact h
    · rename_i hk
      exact List.nodup_append.2 ⟨h, List.nodup_singleton k, by
        intro a ha hb
        simp at hb
        subst hb
        exact hk ha⟩

theorem mem_foldl_insertKey (found m : List GoString) (p : GoString) :
    p ∈ found.foldl insertKey m ↔ p ∈ m ∨ p ∈ found := by
  induction found generalizing m with
  | nil => simp
  | cons k rest ih =>
    rw [List.foldl_cons, ih]
    unfold insertKey
    split
    · rename_i hk
      constructor
      · rintro (h | h)
        · exact Or.inl h
        · exact Or.inr (List.mem_cons_of_mem _ h)
      · rintro (h | h)
        · exact Or.inl h
        · rcases List.mem_cons.1 h with rfl | h
          · exact Or.inl hk
          · exact Or.inr h
    · simp only [List.mem_append, List.mem_singleton, List.mem_cons]
      tauto

theorem collectLoop_spec (d : Deps) (fs : FS)
    (hrange : ∀ keys : List GoString, keys.Nodup → (d.rangeOrder keys).Perm keys)
    (patterns : List GoString)
    (hglob : ∀ pattern ∈ patterns, ∃ found, d.zglob fs pattern = .ok found)
    (m : List GoString) (hm : m.Nodup) :
    ∃ paths, collectLoop d fs patterns m = .ok paths ∧ paths.Nodup ∧
      ∀ p, p ∈ paths ↔
        p ∈ m ∨ ∃ pattern ∈ patterns, ∃ found, d.zglob fs pattern = .ok found ∧ p ∈ found := by
  induction patterns generalizing m with
  | nil =>
    refine ⟨d.rangeOrder m, rfl, (hrange m hm).nodup_iff.2 hm, ?_⟩
    intro p
    rw [(hrange m hm).mem_iff]
    simp
  | cons pattern rest ih =>
    obtain ⟨found, hfound⟩ := hglob pattern (List.mem_cons_self _ _)
    obtain ⟨paths, h1, h2, h3⟩ :=
      ih (fun q hq => hglob q (List.mem_cons_of_mem _ hq)) (found.foldl insertKey m)
        (foldl_insertKey_nodup found m hm)
    refine ⟨paths, ?_, h2, ?_⟩
    · simp only [collectLoop, hfound]
      exact h1
    · intro p
      rw [h3, mem_foldl_insertKey]
      constructor
      · rintro ((h | h) | ⟨q, hq, f, hf, hp⟩)
        · exact Or.inl h
        · exact Or.inr ⟨pattern, List.mem_cons_self _ _, found, hfound, h⟩
        · exact Or.inr ⟨q, List.mem_cons_of_mem _ hq, f, hf, hp⟩
      · rintro (h | ⟨q, hq, f, hf, hp⟩)
        · exact Or.inl (Or.inl h)
        · rcases List.mem_cons.1 hq with rfl | hq
          · rw [hfound] at hf
            cases hf
            exact Or.inl (Or.inr hp)
          · exact Or.inr ⟨q, hq, f, hf, hp⟩

/-- C2: when the expansion of every pattern succeeds (and `range` visits every key of the
map once), `collectFilesWithPatterns` returns a list that contains no path twice, and a path
is in it if and only if the expansion of at least one of the patterns returned that path. -/
theorem collectFilesWithPatterns_dedup (d : Deps) (fs : FS) (patterns : List GoString)
    (hrange : ∀ keys : List GoString, keys.Nodup → (d.rangeOrder keys).Perm keys)
    (hglob : ∀ pattern ∈ patterns, ∃ found, d.zglob fs pattern = .ok found) :
    ∃ paths, collectFilesWithPatterns d fs patterns = .ok paths ∧ paths.Nodup ∧
      ∀ p, p ∈ paths ↔
        ∃ pattern ∈ patterns, ∃ found, d.zglob fs pattern = .ok found ∧ p ∈ found := by
  obtain ⟨paths, h1, h2, h3⟩ := collectLoop_spec d fs hrange patterns hglob [] List.nodup_nil
  refine ⟨paths, h1, h2, ?_⟩
  intro p
  rw [h3]
  simp

/-- Instance of `collectFilesWithPatterns_dedup`: two patterns that both expand to the two
sample bundles. -/
theorem collectFilesWithPatterns_dedup_witness :
    (∀ keys : List GoString, keys.Nodup → (sampleDeps.rangeOrder keys).Perm keys) ∧
    (∀ pattern ∈ ["/x/*.xcresult".toList, "/**/*.xcresult".toList],
      ∃ found, sampleDeps.zglob sampleFS pattern = .ok found) ∧
    ∃ paths, collectFilesWithPatterns sampleDeps sampleFS
        ["/x/*.xcresult".toList, "/**/*.xcresult".toList] = .ok paths ∧ paths.Nodup ∧
      ∀ p, p ∈ paths ↔
        ∃ pattern ∈ ["/x/*.xcresult".toList, "/**/*.xcresult".toList],
          ∃ found, sampleDeps.zglob sampleFS pattern = .ok found ∧ p ∈ found :=
  ⟨fun _ _ => List.Perm.refl _, fun _ _ => ⟨_, rfl⟩,
    collectFilesWithPatterns_dedup sampleDeps sampleFS _
      (fun _ _ => List.Perm.refl _) (fun _ _ => ⟨_, rfl⟩)⟩

theorem callsOf_append (c : Callee) (t1 t2 : List Event) :
    callsOf c (t1 ++ t2) = callsOf c t1 ++ callsOf c t2 := by
  simp [callsOf, List.filterMap_append]

theorem callsOf_nil (c : Callee) : callsOf c [] = [] := rfl

theorem callsOf_cons_log (c : Callee) (l : Level) (t : List Event) :
    callsOf c (Event.log l :: t) = callsOf c t := by
  simp [callsOf, List.filterMap_cons]

theorem callsOf_log (c : Callee) (l : Level) : callsOf c [Event.log l] = [] := rfl

theorem callsOf_call (c c2 : Callee) (args : List GoString) :
    callsOf c [Event.call c2 args] = if c2 = c then [args] else [] := by
  simp only [callsOf, List.filterMap_cons, List.filterMap_nil]
  split <;> simp_all

theorem generateTestReport_calls (d : Deps) (rootDir path : GoString) (w : World) :
    callsOf .generateTestReport (generateTestReport d rootDir path w).2.trace =
      callsOf .generateTestReport w.trace := by
  unfold generateTestReport
  simp only
  repeat' split
  all_goals simp [World.emit, callsOf_append, callsOf, List.filterMap_cons]

theorem logPaths_fs (paths : List GoString) (w : World) : (logPaths paths w).fs = w.fs := by
  induction paths generalizing w with
  | nil => rfl
  | cons p rest ih => simp [logPaths, ih, World.emit]

theorem logPaths_calls (c : Callee) (paths : List GoString) (w : World) :
    callsOf c (logPaths paths w).trace = callsOf c w.trace := by
  induction paths generalizing w with
  | nil => rfl
  | cons p rest ih => simp [logPaths, ih, World.emit, callsOf_append, callsOf_log]

theorem generateReports_calls (d : Deps) (rootDir : GoString) (paths : List GoString)
    (w : World) :
    callsOf .generateTestReport (generateReports d rootDir paths w).trace =
      callsOf .generateTestReport w.trace ++ paths.map (fun p => [rootDir, p]) := by
  induction paths generalizing w with
  | nil => simp [generateReports]
  | cons p rest ih =>
    have key := generateTestReport_calls d rootDir p
      (w.emit (.call .generateTestReport [rootDir, p]))
    simp only [generateReports]
    split
    · rename_i err w2 heq
      rw [heq] at key
      rw [ih]
      simp only [World.emit, callsOf_append, callsOf_log, callsOf_call, if_true,
        List.append_nil, List.map_cons] at key ⊢
      rw [key]
      simp
    · rename_i w2 heq
      rw [heq] at key
      rw [ih]
      simp only [World.emit, callsOf_append, callsOf_log, callsOf_call, if_true,
        List.append_nil, List.map_cons] at key ⊢
      rw [key]
      simp

theorem generateTestReport_trace_irrelevant (d : Deps) (rootDir path : GoString) (w : World)
    (t : List Event) :
    (generateTestReport d rootDir path { fs := w.fs, trace := t }).1 =
        (generateTestReport d rootDir path w).1 ∧
    (generateTestReport d rootDir path { fs := w.fs, trace := t }).2.fs =
        (generateTestReport d rootDir path w).2.fs := by
  unfold generateTestReport
  simp only [World.emit]
  cases Mkdir w.fs (reportDirPath rootDir path) with
  | error err =>
    simp only
    split <;> exact ⟨rfl, rfl⟩
  | ok fs1 =>
    simp only
    cases d.htmlGenerate fs1 (reportDirPath rootDir path) path with
    | mk r2 fs2 =>
      cases r2 with
      | some err => exact ⟨rfl, rfl⟩
      | none =>
        simp only
        cases injectGoogleAnalytics d (reportDirPath rootDir path) fs2 with
        | mk r3 fs3 =>
          cases r3 with
          | some err => exact ⟨rfl, rfl⟩
          | none =>
            simp only
            cases moveAssets path (reportDirPath rootDir path) fs3 with
            | mk r4 fs4 =>
              cases r4 with
              | some err => exact ⟨rfl, rfl⟩
              | none =>
                simp only
                cases createReportInfo (reportDirPath rootDir path) fs4 with
                | mk r5 fs5 =>
                  cases r5 with
                  | some err => exact ⟨rfl, rfl⟩
                  | none => exact ⟨rfl, rfl⟩

theorem generateReports_fs (d : Deps) (rootDir : GoString) (paths : List GoString)
    (w : World) :
    (generateReports d rootDir paths w).fs =
      paths.foldl
        (fun fs p => (generateTestReport d rootDir p { fs := fs, trace := [] }).2.fs) w.fs := by
  induction paths generalizing w with
  | nil => rfl
  | cons p rest ih =>
    have key := (generateTestReport_trace_irrelevant d rootDir p
      (w.emit (.call .generateTestReport [rootDir, p])) []).2
    simp only [World.emit] at key
    simp only [generateReports, List.foldl_cons]
    split
    · rename_i err w2 heq
      rw [ih, key]
      simp only [World.emit] at heq ⊢
      rw [heq]
    · rename_i w2 heq
      rw [ih, key]
      simp only [World.emit] at heq ⊢
      rw [heq]

/-- C1: when discovery yields a non-empty list of bundle paths and the report root is
resolved, then, whichever of the per-bundle `generateTestReport` calls fail, `Run` calls
`generateTestReport` exactly once for every discovered path (with the resolved root, in the
order of the list), returns a nil error, and returns a `Result` whose `HtmlReportDir` is the
resolved report root. The calls are real: the file system after the run is the one obtained
from the file system after the root resolution by applying the file-system effect of
`generateTestReport` once for every path, in order, failed calls included. -/
theorem Run_generates_every_path (d : Deps) (config : Config) (w : World)
    (paths : List GoString) (rootDir : GoString) (fs2 : FS)
    (hpaths : collectFilesWithPatterns d w.fs (effectivePatterns config) = .ok paths)
    (hne : paths ≠ [])
    (hroot : htmlReportsRootDir d w.fs = (.ok rootDir, fs2)) :
    (Run d config w).1 = ({ HtmlReportDir := rootDir }, none) ∧
    callsOf .generateTestReport (Run d config w).2.trace =
      callsOf .generateTestReport w.trace ++ paths.map (fun p => [rootDir, p]) ∧
    (Run d config w).2.fs =
      paths.foldl
        (fun fs p => (generateTestReport d rootDir p { fs := fs, trace := [] }).2.fs) fs2 := by
  have hlen : ¬ paths.length = 0 := fun h => hne (List.length_eq_zero.1 h)
  unfold Run
  simp only [World.emit, hpaths, hlen, if_false, logPaths_fs, hroot]
  refine ⟨trivial, ?_, ?_⟩
  · simp only [callsOf_append, callsOf_log, List.append_nil, generateReports_calls,
      logPaths_calls, callsOf_call]
    simp
  · rw [generateReports_fs]

/-- Instance of `Run_generates_every_path` on the sample world with two patterns: the report
of the first bundle already exists, and the renderer fails on the second one after its
report directory `/reports/other` was created. -/
theorem Run_generates_every_path_witness :
    collectFilesWithPatterns sampleDeps sampleWorld.fs (effectivePatterns sampleConfigTwo) =
      .ok ["/x/run.xcresult".toList, "/y/other.xcresult".toList] ∧
    ["/x/run.xcresult".toList, "/y/other.xcresult".toList] ≠ [] ∧
    htmlReportsRootDir sampleDeps sampleWorld.fs = (.ok "/reports".toList, sampleFS) ∧
    Stat sampleFS "/reports/other".toList = .error .enoent ∧
    Stat (Run sampleDeps sampleConfigTwo sampleWorld).2.fs "/reports/other".toList =
      .ok .dir ∧
    (Run sampleDeps sampleConfigTwo sampleWorld).1 =
      ({ HtmlReportDir := "/reports".toList }, none) ∧
    callsOf .generateTestReport (Run sampleDeps sampleConfigTwo sampleWorld).2.trace =
      callsOf .generateTestReport sampleWorld.trace ++
        ["/x/run.xcresult".toList, "/y/other.xcresult".toList].map
          (fun p => ["/reports".toList, p]) ∧
    (Run sampleDeps sampleConfigTwo sampleWorld).2.fs =
      ["/x/run.xcresult".toList, "/y/other.xcresult".toList].foldl
        (fun fs p =>
          (generateTestReport sampleDeps "/reports".toList p { fs := fs, trace := [] }).2.fs)
        sampleFS :=
  ⟨by decide, by decide, by decide, by decide, by decide,
    Run_generates_every_path sampleDeps sampleConfigTwo sampleWorld
      ["/x/run.xcresult".toList, "/y/other.xcresult".toList] "/reports".toList sampleFS
      (by decide) (by decide) (by decide)⟩

/-- C8: when the report directory of a bundle (the report root joined with the bundle's
base name) already exists, `generateTestReport` returns success, leaves the file system
unchanged, and records nothing but a warning: neither the renderer nor the HTML injection,
the asset relocation or the metadata writer is invoked. -/
theorem generateTestReport_skips_existing (d : Deps) (rootDir xcresultPath : GoString)
    (w : World) (hexists : Stat w.fs (reportDirPath rootDir xcresultPath) = .ok .dir) :
    generateTestReport d rootDir xcresultPath w =
      (none, { fs := w.fs, trace := w.trace ++ [.log .warnf] }) := by
  have hmk : Mkdir w.fs (reportDirPath rootDir xcresultPath) = .error .eexist := by
    unfold Stat at hexists
    unfold Mkdir
    by_cases hn : reportDirPath rootDir xcresultPath = []
    · rw [if_pos hn] at hexists; cases hexists
    · rw [if_neg hn] at hexists ⊢
      cases hr : w.fs.resolve (reportDirPath rootDir xcresultPath) with
      | error err => rw [hr] at hexists; cases hexists
      | ok p =>
        rw [hr] at hexists
        simp only at hexists ⊢
        cases hg : w.fs.get p with
        | none => rw [hg] at hexists; cases hexists
        | some node => rfl
  unfold generateTestReport
  simp only [hmk, isExist, if_true, World.emit]

/-- Instance of `generateTestReport_skips_existing`: the report directory `/reports/run` of
the sample bundle exists. -/
theorem generateTestReport_skips_existing_witness :
    Stat sampleWorld.fs (reportDirPath "/reports".toList "/x/run.xcresult".toList) =
      .ok .dir ∧
    generateTestReport sampleDeps "/reports".toList "/x/run.xcresult".toList sampleWorld =
      (none, { fs := sampleWorld.fs, trace := sampleWorld.trace ++ [.log .warnf] }) :=
  ⟨by decide, generateTestReport_skips_existing sampleDeps _ _ sampleWorld (by decide)⟩

/-- C10: when discovery succeeds and yields no bundle path, `Run` returns a nil error and a
`Result` whose `HtmlReportDir` is the empty string; the file system is unchanged (no
directory is created) and the trace holds three log lines only, so the report root is
neither resolved nor created. -/
theorem Run_no_bundles (d : Deps) (config : Config) (w : World)
    (hnone : collectFilesWithPatterns d w.fs (effectivePatterns config) = .ok []) :
    Run d config w =
      (({ HtmlReportDir := [] }, none),
        { fs := w.fs,
          trace := w.trace ++ [.log .println, .log .infof, .log .printf] }) := by
  unfold Run
  simp [World.emit, hnone]

/-- Instance of `Run_no_bundles`: the deploy directory of the sample world without bundles
holds no `.xcresult` entry. -/
theorem Run_no_bundles_witness :
    collectFilesWithPatterns sampleDeps sampleEmptyWorld.fs
      (effectivePatterns sampleConfig) = .ok [] ∧
    Run sampleDeps sampleConfig sampleEmptyWorld =
      (({ HtmlReportDir := [] }, none),
        { fs := sampleEmptyWorld.fs,
          trace := sampleEmptyWorld.trace ++ [.log .println, .log .infof, .log .printf] }) :=
  ⟨by decide, Run_no_bundles sampleDeps sampleConfig sampleEmptyWorld (by decide)⟩

theorem htmlReportsRootDir_missing (d : Deps) (fs : FS)
    (henv : d.envGet htmlReportDirKey ≠ [])
    (hmissing : Stat fs (d.envGet htmlReportDirKey) ≠ .ok .dir) :
    ∃ err, htmlReportsRootDir d fs = (.error err, fs) := by
  unfold htmlReportsRootDir
  simp only [henv, if_false]
  unfold IsDirExists
  rw [if_neg henv]
  cases hs : Stat fs (d.envGet htmlReportDirKey) with
  | error err =>
    simp only
    cases hne : isNotExist err with
    | true => exact ⟨_, rfl⟩
    | false => exact ⟨_, rfl⟩
  | ok node =>
    cases node with
    | dir => exact absurd hs hmissing
    | file c => exact ⟨_, rfl⟩

/-- C9 fails as stated: on the sample file system without bundles, with the default pattern
under the deploy directory `/x` (which matches nothing) and the report root `/missing`
supplied through `BITRISE_HTML_REPORT_DIR`, which does not exist, `Run` returns a nil error
(and an empty report root): the report root is only looked at after at least one bundle was
found. -/
theorem Run_missing_report_root_counterexample :
    sampleDepsMissing.envGet htmlReportDirKey = "/missing".toList ∧
    Stat sampleEmptyWorld.fs "/missing".toList = .error .enoent ∧
    sampleDepsMissing.zglob sampleEmptyWorld.fs "/x/**/*.xcresult".toList = .ok [] ∧
    effectivePatterns sampleConfig = ["/x/**/*.xcresult".toList] ∧
    (Run sampleDepsMissing sampleConfig sampleEmptyWorld).1 =
      ({ HtmlReportDir := [] }, none) := by
  refine ⟨by decide, by decide, by decide, by decide, by decide⟩

/-- C9 (amended): for every configuration with an externally supplied report root (a
non-empty `BITRISE_HTML_REPORT_DIR`) that does not exist as a directory, and for which
discovery does not succeed with zero bundle paths, `Run` returns an error and performs no
per-bundle generation (no call of `generateTestReport`, no change of the file system). -/
theorem Run_missing_report_root (d : Deps) (config : Config) (w : World)
    (henv : d.envGet htmlReportDirKey ≠ [])
    (hmissing : Stat w.fs (d.envGet htmlReportDirKey) ≠ .ok .dir)
    (hfound : collectFilesWithPatterns d w.fs (effectivePatterns config) ≠ .ok []) :
    (∃ err, (Run d config w).1.2 = some err) ∧
    callsOf .generateTestReport (Run d config w).2.trace =
      callsOf .generateTestReport w.trace ∧
    (Run d config w).2.fs = w.fs := by
  obtain ⟨err, herr⟩ := htmlReportsRootDir_missing d w.fs henv hmissing
  unfold Run
  simp only [World.emit]
  cases hc : collectFilesWithPatterns d w.fs (effectivePatterns config) with
  | error e =>
    exact ⟨⟨_, rfl⟩, by simp [callsOf_append, callsOf_cons_log, callsOf_nil], rfl⟩
  | ok paths =>
    have hlen : ¬ paths.length = 0 := by
      intro h
      rw [List.length_eq_zero.1 h] at hc
      exact hfound hc
    simp only [hlen, if_false, logPaths_fs, herr]
    refine ⟨⟨_, rfl⟩, ?_, trivial⟩
    simp [callsOf_append, callsOf_cons_log, callsOf_nil, callsOf_call, logPaths_calls]

/-- Instance of `Run_missing_report_root`: on the sample file system the default pattern
finds the bundle `/x/run.xcresult`, and the report root `/missing` does not exist. -/
theorem Run_missing_report_root_witness :
    sampleDepsMissing.envGet htmlReportDirKey ≠ [] ∧
    Stat sampleWorld.fs (sampleDepsMissing.envGet htmlReportDirKey) ≠ .ok .dir ∧
    collectFilesWithPatterns sampleDepsMissing sampleWorld.fs
      (effectivePatterns sampleConfig) ≠ .ok [] ∧
    (∃ err, (Run sampleDepsMissing sampleConfig sampleWorld).1.2 = some err) ∧
    callsOf .generateTestReport (Run sampleDepsMissing sampleConfig sampleWorld).2.trace =
      callsOf .generateTestReport sampleWorld.trace ∧
    (Run sampleDepsMissing sampleConfig sampleWorld).2.fs = sampleWorld.fs :=
  ⟨by decide, by decide, by decide,
    Run_missing_report_root sampleDepsMissing sampleConfig sampleWorld
      (by decide) (by decide) (by decide)⟩

end Step
